import Mathlib

/-!
# yacheck: device store and lease reconciliation

A shallow embedding of `database.go`, `leases.go`, `sessions.go` and of
`getActiveUsers` in `main.go`.

Conventions of the embedding:

* Go `string` and `[]byte` values are Lean `String`s.  Go compares strings
  bytewise; on UTF-8 text this is the lexicographic order of the code points,
  which is the order of `String.data`.
* `net.HardwareAddr` and `net.IP` are lists of bytes (`Fin 256`).
* `time.Time` values made by `time.Unix(sec, 0)` are their seconds counter, an
  `int64` kept as an `Int` reduced to the signed 64-bit range.
* The bbolt bucket `devices` is a key-ordered association list; a transaction
  body is a function on the bucket, `db.Update` commits on `nil` and rolls
  back on an error.  Failures of the disk underneath the store are not part
  of the model.
* `encoding/json`, `net.ParseIP` and `net.ParseMAC` are library code and are
  parameters of the functions that call them; `strconv.ParseInt` is embedded.
* A lease file is the list of lines its `bufio.Scanner` yields; `os.Open`
  either fails (file missing, or another error) or gives that list.
* `crypto/sha256`, `nacl/secretbox` and `encoding/base64` are library code and
  are parameters too; the random nonce and the readings of `time.Now()` are
  arguments.
* `klog` diagnostics are not represented.
-/

namespace Yacheck

/-! ## Strings and hardware addresses -/

/-- Go's `a < b` on strings. -/
abbrev strLess (a b : String) : Prop := a.data < b.data

/-- Go's `a <= b` on strings. -/
abbrev strLessEq (a b : String) : Prop := a.data ≤ b.data

/-- The type `net.HardwareAddr`, a byte slice. -/
abbrev HardwareAddr := List (Fin 256)

/-- The constant `hexDigit = "0123456789abcdef"` of package `net`, indexed. -/
def hexDigit (n : Nat) : Char :=
  "0123456789abcdef".data.getD n '0'

/-- The loop of `HardwareAddr.String`: a colon before every byte but the
first, then the two hex digits `hexDigit[b>>4]`, `hexDigit[b&0xF]`. -/
def HardwareAddr.format : Bool → List (Fin 256) → List Char
  | _, [] => []
  | first, b :: rest =>
    let digits :=
      hexDigit (b.val / 16) :: hexDigit (b.val % 16) :: HardwareAddr.format false rest
    if first then digits else ':' :: digits

/-- The method `HardwareAddr.String`: empty for an empty address, else the
colon-separated lower-case hex form. -/
def HardwareAddr.String (a : HardwareAddr) : String :=
  String.mk (HardwareAddr.format true a)

/-! ## Stored records -/

/-- The struct `Device`: the stored per-device data. -/
structure Device where
  MACAddress : String
  Hostname : String
  UserNickname : String
deriving DecidableEq, Repr

/-- The two `encoding/json` entry points used on `Device`.  `Marshal` cannot
fail on a struct of three strings, so it is total; `Unmarshal` yields `none`
where the library reports an error. -/
structure JSON where
  Marshal : Device → String
  Unmarshal : String → Option Device

/-- Errors returned by the device store. -/
inductive Err where
  | ErrKeyRequired
  | ErrKeyTooLarge
  | ErrValueTooLarge
  | unmarshal
  | couldNotUnmarshalExisting
  | alreadyClaimed
  | notOwner
deriving DecidableEq, Repr

/-! ## The bbolt bucket -/

/-- The constant `MaxKeySize` of bbolt. -/
def MaxKeySize : Nat := 32768

/-- The constant `MaxValueSize` of bbolt, `(1 << 31) - 2`. -/
def MaxValueSize : Nat := 2 ^ 31 - 2

/-- A bbolt bucket: key/value pairs in strictly ascending key order. -/
structure Bucket where
  entries : List (String × String)
  ordered : entries.Pairwise (fun a b => strLess a.1 b.1)

/-- The empty bucket, as left by `CreateBucketIfNotExists` on a new file. -/
def Bucket.empty : Bucket := ⟨[], List.Pairwise.nil⟩

/-- The method `Bucket.Get`: the value under `key`, `none` for Go's `nil`. -/
def Bucket.Get (b : Bucket) (key : String) : Option String :=
  (b.entries.find? (fun e => decide (e.1 = key))).map Prod.snd

/-- The entries of a bucket after `key` is set to `value`: the smaller keys,
the new pair, the larger keys. -/
def Bucket.putEntries (l : List (String × String)) (key value : String) :
    List (String × String) :=
  l.filter (fun e => decide (strLess e.1 key)) ++
    (key, value) :: l.filter (fun e => decide (strLess key e.1))

/-- The method `Bucket.Put` in a writable transaction: rejects a blank key, a
key above `MaxKeySize` and a value above `MaxValueSize`, else sets the key. -/
def Bucket.Put (b : Bucket) (key value : String) : Except Err Bucket :=
  if key.utf8ByteSize = 0 then .error .ErrKeyRequired
  else if key.utf8ByteSize > MaxKeySize then .error .ErrKeyTooLarge
  else if value.utf8ByteSize > MaxValueSize then .error .ErrValueTooLarge
  else .ok ⟨Bucket.putEntries b.entries key value, by
    unfold Bucket.putEntries
    rw [List.pairwise_append]
    refine ⟨b.ordered.filter _, ?_, ?_⟩
    · rw [List.pairwise_cons]
      refine ⟨?_, b.ordered.filter _⟩
      intro e he
      simpa using (List.mem_filter.mp he).2
    · intro a ha e he
      have ha2 : strLess a.1 key := by simpa using (List.mem_filter.mp ha).2
      rcases List.mem_cons.mp he with rfl | he
      · exact ha2
      · have he2 : strLess key e.1 := by simpa using (List.mem_filter.mp he).2
        exact lt_trans ha2 he2⟩

/-- The method `Bucket.Delete` in a writable transaction: removes the key if
present and returns `nil` either way. -/
def Bucket.Delete (b : Bucket) (key : String) : Except Err Bucket :=
  .ok ⟨b.entries.filter (fun e => decide (e.1 ≠ key)), b.ordered.filter _⟩

/-! ## database.go -/

/-- The struct `BoltDatabase`, reduced to its one bucket `devices`. -/
structure BoltDatabase where
  devices : Bucket

/-- What a call of `db.Update` leaves behind: the error it returned (`none`
for `nil`) and the database afterwards. -/
structure UpdateResult where
  err : Option Err
  db : BoltDatabase

/-- The method `db.Update`: run `fn` on the bucket; commit its result when it
returns `nil`, roll back and pass the error on otherwise. -/
def BoltDatabase.Update (b : BoltDatabase) (fn : Bucket → Except Err Bucket) : UpdateResult :=
  match fn b.devices with
  | .ok devices => ⟨none, ⟨devices⟩⟩
  | .error e => ⟨some e, b⟩

/-- The method `getDeviceForMacAddress`. -/
def getDeviceForMacAddress (json : JSON) (devices : Bucket) (maddr : HardwareAddr) :
    Except Err (Option Device) :=
  match devices.Get (HardwareAddr.String maddr) with
  | none => .ok none
  | some deviceBytes =>
    match json.Unmarshal deviceBytes with
    | none => .error .unmarshal
    | some device => .ok (some device)

/-- The call `sort.Slice(res, ...)` with `less = res[i].MACAddress <
res[j].MACAddress`.  The library promises some permutation that is sorted by
`less`; insertion sort is one. -/
def sortByMACAddress (res : List Device) : List Device :=
  res.insertionSort (fun a b => strLessEq a.MACAddress b.MACAddress)

/-- The loop of `GetDevicesForMacAddresses`, `res` being the slice so far. -/
def GetDevicesForMacAddresses.loop (json : JSON) (devices : Bucket) :
    List HardwareAddr → List Device → List Device
  | [], res => res
  | maddr :: rest, res =>
    match getDeviceForMacAddress json devices maddr with
    | .error _ => GetDevicesForMacAddresses.loop json devices rest res
    | .ok none => GetDevicesForMacAddresses.loop json devices rest res
    | .ok (some device) => GetDevicesForMacAddresses.loop json devices rest (res ++ [device])

/-- The method `GetDevicesForMacAddresses`. -/
def GetDevicesForMacAddresses (json : JSON) (b : BoltDatabase)
    (macAddresses : List HardwareAddr) : Except Err (List Device) :=
  .ok (sortByMACAddress (GetDevicesForMacAddresses.loop json b.devices macAddresses []))

/-- The cursor loop of `GetDevicesForUser` over the pairs from `cur.First()`
on, `res` being the slice so far. -/
def GetDevicesForUser.loop (json : JSON) (user : String) :
    List (String × String) → List Device → List Device
  | [], res => res
  | (_, v) :: rest, res =>
    match json.Unmarshal v with
    | none => GetDevicesForUser.loop json user rest res
    | some device =>
      if device.UserNickname ≠ user then GetDevicesForUser.loop json user rest res
      else GetDevicesForUser.loop json user rest (res ++ [device])

/-- The method `GetDevicesForUser`. -/
def GetDevicesForUser (json : JSON) (b : BoltDatabase) (user : String) :
    Except Err (List Device) :=
  .ok (sortByMACAddress (GetDevicesForUser.loop json user b.devices.entries []))

/-- The condition `existing != nil && existing.UserNickname != user`. -/
def ownedByOther (existing : Option Device) (user : String) : Bool :=
  match existing with
  | none => false
  | some d => decide (d.UserNickname ≠ user)

/-- The method `ClaimDevice`. -/
def ClaimDevice (json : JSON) (b : BoltDatabase) (user : String) (macAddress : HardwareAddr)
    (hostname : String) : UpdateResult :=
  b.Update fun devices =>
    match getDeviceForMacAddress json devices macAddress with
    | .error _ => .error .couldNotUnmarshalExisting
    | .ok existing =>
      if ownedByOther existing user then .error .alreadyClaimed
      else
        let v := json.Marshal
          { MACAddress := HardwareAddr.String macAddress
            Hostname := hostname
            UserNickname := user }
        devices.Put (HardwareAddr.String macAddress) v

/-- The method `UnclaimDevice`. -/
def UnclaimDevice (json : JSON) (b : BoltDatabase) (user : String) (macAddress : HardwareAddr) :
    UpdateResult :=
  b.Update fun devices =>
    match getDeviceForMacAddress json devices macAddress with
    | .error _ => .error .couldNotUnmarshalExisting
    | .ok device =>
      if ownedByOther device user then .error .notOwner
      else devices.Delete (HardwareAddr.String macAddress)

/-! ## Splitting -/

/-- Go's `strings.Split` for a one-character separator, on character lists;
`cur` holds the current piece, reversed. -/
def splitChars (sep : Char) : List Char → List Char → List (List Char)
  | [], cur => [cur.reverse]
  | c :: cs, cur =>
    if c = sep then cur.reverse :: splitChars sep cs [] else splitChars sep cs (c :: cur)

/-- Go's `strings.Split(s, sep)` for a one-character separator. -/
def stringsSplit (s : String) (sep : Char) : List String :=
  (splitChars sep s.data []).map String.mk

/-! ## leases.go -/

/-- The type `net.IP`, a byte slice. -/
abbrev IP := List (Fin 256)

/-- The two parsers of package `net` used on a lease line; `none` stands for
`nil` from `ParseIP` and for a non-nil error from `ParseMAC`. -/
structure Net where
  ParseIP : String → Option IP
  ParseMAC : String → Option HardwareAddr

/-- Reduction of an integer to the range of `int64` (two's complement). -/
def wrapInt64 (x : Int) : Int :=
  (x + 2 ^ 63) % 2 ^ 64 - 2 ^ 63

/-- A `time.Time` without monotonic reading and with zero nanoseconds: `ext` is
its `int64` count of seconds since year 1. -/
structure Time where
  ext : Int
deriving DecidableEq, Repr

/-- The constant `unixToInternal` of package `time`, in seconds. -/
def unixToInternal : Int := 62135596800

/-- The call `time.Unix(sec, 0)`: `ext = sec + unixToInternal` in `int64`. -/
def timeUnix (sec : Int) : Time :=
  ⟨wrapInt64 (sec + unixToInternal)⟩

/-- The method `Time.After` on such values. -/
def Time.After (t u : Time) : Bool :=
  decide (t.ext > u.ext)

/-- The two `strconv` error kinds. -/
inductive NumError where
  | ErrSyntax
  | ErrRange
deriving DecidableEq, Repr

/-- The constant `maxUint64`. -/
def maxUint64 : Nat := 2 ^ 64 - 1

/-- The digit loop of `strconv.ParseUint(s, 10, 64)` with `n` accumulated so
far: a non-digit is a syntax error with value 0, an overflow is a range error
with value `maxUint64`. -/
def parseUintLoop : List Char → Nat → Nat × Option NumError
  | [], n => (n, none)
  | c :: cs, n =>
    if '0' ≤ c ∧ c ≤ '9' then
      if n ≥ maxUint64 / 10 + 1 then (maxUint64, some .ErrRange)
      else if n * 10 + (c.toNat - '0'.toNat) > maxUint64 then (maxUint64, some .ErrRange)
      else parseUintLoop cs (n * 10 + (c.toNat - '0'.toNat))
    else (0, some .ErrSyntax)

/-- The call `strconv.ParseUint(s, 10, 64)`. -/
def ParseUint (s : List Char) : Nat × Option NumError :=
  if s = [] then (0, some .ErrSyntax) else parseUintLoop s 0

/-- The tail of `strconv.ParseInt` after the sign is taken off: `un, err` come
from `ParseUint`. -/
def parseIntSigned (neg : Bool) (r : Nat × Option NumError) : Int × Option NumError :=
  if r.2 = some .ErrSyntax then (0, some .ErrSyntax)
  else if !neg && decide (r.1 ≥ 2 ^ 63) then (2 ^ 63 - 1, some .ErrRange)
  else if neg && decide (r.1 > 2 ^ 63) then (-(2 ^ 63), some .ErrRange)
  else if neg then (wrapInt64 (-(r.1 : Int)), none)
  else ((r.1 : Int), none)

/-- The call `strconv.ParseInt(s, 10, 64)`: the value and the error (`none`
for `nil`). -/
def ParseInt (s : String) : Int × Option NumError :=
  match s.data with
  | [] => (0, some .ErrSyntax)
  | c :: cs =>
    if c = '+' then parseIntSigned false (ParseUint cs)
    else if c = '-' then parseIntSigned true (ParseUint cs)
    else parseIntSigned false (ParseUint (c :: cs))

/-- The struct `Lease`. -/
structure Lease where
  IPAddress : IP
  MACAddress : HardwareAddr
  Expires : Time
  Hostname : String
deriving DecidableEq, Repr

/-- The function `getField`. -/
def getField (parts : List String) (ix : Nat) : String :=
  if ix ≥ parts.length then "" else parts.getD ix ""

/-- A Go `map[string]T` as an association list with one pair per key. -/
abbrev GoMap (T : Type) := List (String × T)

/-- The lookup `v, ok := m[k]`. -/
def GoMap.get? {T : Type} (m : GoMap T) (k : String) : Option T :=
  (m.find? (fun e => decide (e.1 = k))).map Prod.snd

/-- The assignment `m[k] = v`. -/
def GoMap.set {T : Type} (m : GoMap T) (k : String) (v : T) : GoMap T :=
  (k, v) :: m.filter (fun e => decide (e.1 ≠ k))

/-- The header loop `for i, part := range parts { fieldMap[part] = i }`, from
index `i` on. -/
def headerFieldMap : List String → Nat → GoMap Nat → GoMap Nat
  | [], _, m => m
  | part :: rest, i, m => headerFieldMap rest (i + 1) (m.set part i)

/-- The index expression `fieldMap[name]`: zero for a missing key. -/
def fieldIndex (fieldMap : GoMap Nat) (name : String) : Nat :=
  (fieldMap.get? name).getD 0

/-- The slice `needFields`. -/
def needFields : List String := ["address", "hwaddr", "expire", "hostname"]

/-- The expression `getField(parts, fieldMap[name])` on a data line, `parts`
being `strings.Split(line, ",")`. -/
def leases.field (fieldMap : GoMap Nat) (line : String) (name : String) : String :=
  getField (stringsSplit line ',') (fieldIndex fieldMap name)

/-- Lines 75 to 99 of `leases.go`: the lease built from one data line, `none`
where the loop does `continue`.  Only an invalid address continues; after a
failed `ParseMAC` the address is `nil`, after a failed `ParseInt` the number is
what `ParseInt` returned beside the error. -/
def leases.parseLine (net : Net) (fieldMap : GoMap Nat) (line : String) : Option Lease :=
  let address := leases.field fieldMap line "address"
  match net.ParseIP address with
  | none => none
  | some ip =>
    let hwaddr := leases.field fieldMap line "hwaddr"
    let mac := (net.ParseMAC hwaddr).getD []
    let expires := leases.field fieldMap line "expire"
    let expiresInt := (ParseInt expires).1
    let expiresT := timeUnix expiresInt
    let hostname := leases.field fieldMap line "hostname"
    some { IPAddress := ip, MACAddress := mac, Expires := expiresT, Hostname := hostname }

/-- Lines 100 to 106 of `leases.go`: enter `l` into `resMap` unless the map
holds a lease for the same address string that `l` does not expire after. -/
def leases.merge (resMap : GoMap Lease) (l : Lease) : GoMap Lease :=
  match resMap.get? (HardwareAddr.String l.MACAddress) with
  | some existing =>
    if l.Expires.After existing.Expires then resMap.set (HardwareAddr.String l.MACAddress) l
    else resMap
  | none => resMap.set (HardwareAddr.String l.MACAddress) l

/-- One round of the scan loop on a data line. -/
def leases.step (net : Net) (fieldMap : GoMap Nat) (resMap : GoMap Lease) (line : String) :
    GoMap Lease :=
  match leases.parseLine net fieldMap line with
  | none => resMap
  | some l => leases.merge resMap l

/-- The final `sort.Slice` of `leases`, by `MACAddress.String()`.  The map
holds one lease per address string, so the sorted order is unique. -/
def sortLeases (res : List Lease) : List Lease :=
  res.insertionSort
    (fun a b => strLessEq (HardwareAddr.String a.MACAddress) (HardwareAddr.String b.MACAddress))

/-- What `os.Open` and the scanner give for a path. -/
inductive OpenResult where
  | notExist
  | otherError
  | file (lines : List String)

/-- The file system the lease reader sees. -/
abbrev FS := String → OpenResult

/-- Errors returned by `leases`. -/
inductive LeaseErr where
  | couldNotOpen (notExist : Bool)
  | missingField (f : String)
deriving DecidableEq, Repr

/-- The test `errors.Is(err, os.ErrNotExist)`; the open error is wrapped with
`%w`, the missing-field error wraps nothing. -/
def LeaseErr.isNotExist : LeaseErr → Bool
  | .couldNotOpen notExist => notExist
  | .missingField _ => false

/-- The struct `KeaLeaseFile`. -/
structure KeaLeaseFile where
  paths : List String

/-- The method `KeaLeaseFile.leases` on a scanned file: the first line is the
header, the rest are data lines. -/
def KeaLeaseFile.scan (net : Net) : List String → Except LeaseErr (List Lease)
  | [] => .ok []
  | header :: rest =>
    let fieldMap := headerFieldMap (stringsSplit header ',') 0 []
    match needFields.find? (fun f => (fieldMap.get? f).isNone) with
    | some f => .error (.missingField f)
    | none => .ok (sortLeases ((rest.foldl (leases.step net fieldMap) []).map Prod.snd))

/-- The method `KeaLeaseFile.leases`. -/
def KeaLeaseFile.leases (net : Net) (fs : FS) (path : String) : Except LeaseErr (List Lease) :=
  match fs path with
  | .notExist => .error (.couldNotOpen true)
  | .otherError => .error (.couldNotOpen false)
  | .file lines => KeaLeaseFile.scan net lines

/-- The loop of `KeaLeaseFile.Leases`, `res` being the slice so far. -/
def KeaLeaseFile.Leases.loop (net : Net) (fs : FS) :
    List String → List Lease → Except LeaseErr (List Lease)
  | [], res => .ok res
  | path :: rest, res =>
    match KeaLeaseFile.leases net fs path with
    | .error err =>
      if !err.isNotExist then .error err else KeaLeaseFile.Leases.loop net fs rest res
    | .ok leases => KeaLeaseFile.Leases.loop net fs rest (res ++ leases)

/-- The method `KeaLeaseFile.Leases`. -/
def KeaLeaseFile.Leases (net : Net) (fs : FS) (k : KeaLeaseFile) :
    Except LeaseErr (List Lease) :=
  KeaLeaseFile.Leases.loop net fs k.paths []

/-! ## sessions.go -/

/-- The byte slices of `sessions.go`, which are cut at byte 24. -/
abbrev Bytes := List (Fin 256)

/-- The type `[24]byte` of a secretbox nonce. -/
structure Nonce where
  bytes : Bytes
  size : bytes.length = 24

/-- The struct `Session`. -/
structure Session where
  Username : String
  OAuthState : String
  OAuthVerifier : String
deriving DecidableEq, Repr

/-- The library calls of `sessions.go`: `sha256.Sum256` on the bytes of the
secret (the 32-byte key is kept as a list), `secretbox.Seal` (the box it
appends to `out`) and `secretbox.Open` (`none` for `ok = false`), the two
directions of `base64.URLEncoding`, and `encoding/json` on `Session`
(`Marshal` cannot fail on a struct of three strings). -/
structure SessionLib where
  Sum256 : String → Bytes
  Seal : Bytes → Nonce → Bytes → Bytes
  Open : Bytes → Nonce → Bytes → Option Bytes
  EncodeToString : Bytes → String
  DecodeString : String → Option Bytes
  Marshal : Session → Bytes
  Unmarshal : Bytes → Option Session

/-- The fields of `http.Cookie` that `sessions.go` reads or sets. -/
structure Cookie where
  Name : String
  Value : String
  Secure : Bool
  HttpOnly : Bool
  Path : String
deriving DecidableEq, Repr

/-- The struct `Sessions`. -/
structure Sessions where
  Secret : String

/-- The method `Sessions.key`. -/
def Sessions.key (lib : SessionLib) (s : Sessions) : Bytes :=
  lib.Sum256 s.Secret

/-- The cookie loop of `Sessions.Get`; every `continue` goes on with the rest
of the cookies. -/
def Sessions.Get.loop (lib : SessionLib) (secretKey : Bytes) : List Cookie → Option Session
  | [] => none
  | cookie :: rest =>
    if cookie.Name ≠ "session2" then Sessions.Get.loop lib secretKey rest
    else
      match lib.DecodeString cookie.Value with
      | none => Sessions.Get.loop lib secretKey rest
      | some encrypted =>
        if h : encrypted.length < 24 then Sessions.Get.loop lib secretKey rest
        else
          let decryptNonce : Nonce := ⟨encrypted.take 24, by
            rw [List.length_take]
            omega⟩
          match lib.Open (encrypted.drop 24) decryptNonce secretKey with
          | none => Sessions.Get.loop lib secretKey rest
          | some decrypted =>
            match lib.Unmarshal decrypted with
            | none => Sessions.Get.loop lib secretKey rest
            | some res => some res

/-- The method `Sessions.Get` on the cookies of the request (`r.Cookies()`). -/
def Sessions.Get (lib : SessionLib) (s : Sessions) (cookies : List Cookie) : Option Session :=
  Sessions.Get.loop lib (s.key lib) cookies

/-- Go's `strings.HasPrefix`. -/
def stringsHasPrefix (s pre : String) : Bool :=
  pre.data.isPrefixOf s.data

/-- The method `Sessions.Set`: the cookie handed to `http.SetCookie`, `none`
where the method returns without setting one.  `rand` is what
`io.ReadFull(rand.Reader, nonce[:])` gave (`none` for an error),
`publicAddress` is `flagPublicAddress`. -/
def Sessions.Set (lib : SessionLib) (s : Sessions) (publicAddress : String)
    (rand : Option Nonce) (data : Session) : Option Cookie :=
  let secretKey := s.key lib
  let decrypted := lib.Marshal data
  match rand with
  | none => none
  | some nonce =>
    let encrypted := nonce.bytes ++ lib.Seal decrypted nonce secretKey
    some
      { Name := "session2"
        Value := lib.EncodeToString encrypted
        Secure := stringsHasPrefix publicAddress "https://"
        HttpOnly := true
        Path := "/" }

/-! ## main.go -/

/-- What `time.Now()` returns, as `Before` sees it: the seconds since year 1
(`sec()`) and the nanoseconds within the second (`nsec()`). -/
structure Instant where
  sec : Int
  nsec : Nat
deriving DecidableEq, Repr

/-- The call `t.Before(u)` for a `t` made by `time.Unix(sec, 0)` (no monotonic
reading, zero nanoseconds) and a `u` from `time.Now()`. -/
def Time.Before (t : Time) (u : Instant) : Bool :=
  decide (t.ext < u.sec) || (decide (t.ext = u.sec) && decide (0 < u.nsec))

/-- Errors returned by `getActiveUsers`, each wrapping its cause. -/
inductive ActiveErr where
  | couldNotGetLeases (err : LeaseErr)
  | couldNotGetDevices (err : Err)
deriving DecidableEq, Repr

/-- The first loop of `getActiveUsers`; `clock i` is what the call of
`time.Now()` in round `i` returns, `addrs` is the slice so far. -/
def getActiveUsers.collect (clock : Nat → Instant) :
    List Lease → Nat → List HardwareAddr → List HardwareAddr
  | [], _, addrs => addrs
  | lease :: rest, i, addrs =>
    if lease.Expires.Before (clock i) then getActiveUsers.collect clock rest (i + 1) addrs
    else getActiveUsers.collect clock rest (i + 1) (addrs ++ [lease.MACAddress])

/-- The second loop of `getActiveUsers`: `userSet[device.UserNickname] = true`
for every device. -/
def getActiveUsers.userSet : List Device → GoMap Bool → GoMap Bool
  | [], m => m
  | device :: rest, m => getActiveUsers.userSet rest (m.set device.UserNickname true)

/-- The call `sort.Strings`. -/
def sortStrings (l : List String) : List String :=
  l.insertionSort (fun a b => strLessEq a b)

/-- The struct `Service`, reduced to the lease reader; the database, the file
system and the libraries are arguments of the method. -/
structure Service where
  Leases : KeaLeaseFile

/-- The method `Service.getActiveUsers`. -/
def Service.getActiveUsers (net : Net) (fs : FS) (json : JSON) (clock : Nat → Instant)
    (s : Service) (db : BoltDatabase) : Except ActiveErr (List String) :=
  match KeaLeaseFile.Leases net fs s.Leases with
  | .error err => .error (.couldNotGetLeases err)
  | .ok leases =>
    let addrs := getActiveUsers.collect clock leases 0 []
    match GetDevicesForMacAddresses json db addrs with
    | .error err => .error (.couldNotGetDevices err)
    | .ok devices =>
      let userSet := getActiveUsers.userSet devices []
      .ok (sortStrings (userSet.map Prod.fst))

/-! ## Predicates for the statements about leases.go -/

/-- The loop invariant of the scan: `m` is `resMap` after the leases `recs`
were merged in this order. -/
structure leases.Merged (recs : List Lease) (m : GoMap Lease) : Prop where
  nodup : (m.map Prod.fst).Nodup
  key : ∀ e ∈ m, e.1 = HardwareAddr.String e.2.MACAddress
  mem : ∀ e ∈ m, e.2 ∈ recs
  latest : ∀ e ∈ m, ∀ l ∈ recs, l.MACAddress = e.2.MACAddress →
    l.Expires.After e.2.Expires = false
  first : ∀ e ∈ m, recs.find?
    (fun l => decide (l.MACAddress = e.2.MACAddress ∧ l.Expires = e.2.Expires)) = some e.2
  covers : ∀ l ∈ recs, ∃ e ∈ m, e.2.MACAddress = l.MACAddress

/-- A data line all of whose parsed fields are valid: `ParseIP` and `ParseMAC`
succeed and `ParseInt` returns no error. -/
def leases.wellFormed (net : Net) (fieldMap : GoMap Nat) (line : String) : Prop :=
  (net.ParseIP (leases.field fieldMap line "address")).isSome
  ∧ (net.ParseMAC (leases.field fieldMap line "hwaddr")).isSome
  ∧ (ParseInt (leases.field fieldMap line "expire")).2 = none

/-- Whether `os.Open` reports the path as not existing. -/
def FS.missing (fs : FS) (path : String) : Bool :=
  match fs path with
  | .notExist => true
  | _ => false

/-! ## Concrete instances for evaluation -/

/-- A small record codec, one field per line, on which the store is evaluated
where a concrete `JSON` is needed. -/
def lineJSON : JSON where
  Marshal d := d.MACAddress ++ "\n" ++ d.Hostname ++ "\n" ++ d.UserNickname
  Unmarshal s :=
    match stringsSplit s '\n' with
    | [m, h, u] => some ⟨m, h, u⟩
    | _ => none

/-- The value of a hexadecimal digit. -/
def hexValue (c : Char) : Option Nat :=
  if '0' ≤ c ∧ c ≤ '9' then some (c.toNat - '0'.toNat)
  else if 'a' ≤ c ∧ c ≤ 'f' then some (c.toNat - 'a'.toNat + 10)
  else if 'A' ≤ c ∧ c ≤ 'F' then some (c.toNat - 'A'.toNat + 10)
  else none

/-- One group of a colon-separated hardware address: exactly two hex digits. -/
def hexByte (s : String) : Option (Fin 256) :=
  match s.data with
  | [h, l] =>
    match hexValue h, hexValue l with
    | some x, some y => some (Fin.ofNat (16 * x + y))
    | _, _ => none
  | _ => none

/-- The colon form of `net.ParseMAC` (6, 8 or 20 groups of two hex digits); the
dash and dot forms are left out. -/
def colonParseMAC (s : String) : Option HardwareAddr :=
  let groups := stringsSplit s ':'
  if groups.length = 6 ∨ groups.length = 8 ∨ groups.length = 20 then
    groups.mapM hexByte
  else none

/-- One field of a dotted-decimal IPv4 address: 1 to 3 digits, no leading
zero, at most 255. -/
def decimalByte (s : String) : Option (Fin 256) :=
  match ParseUint s.data with
  | (n, none) =>
    if s.length ≤ 3 ∧ n ≤ 255 ∧ (s.length = 1 ∨ s.data.head? ≠ some '0') then
      some (Fin.ofNat n)
    else none
  | _ => none

/-- The dotted-decimal IPv4 form of `net.ParseIP`, giving the 16-byte form;
IPv6 text is left out. -/
def dottedParseIP (s : String) : Option IP :=
  match (stringsSplit s '.').mapM decimalByte with
  | some [a, b, c, d] => some [0, 0, 0, 0, 0, 0, 0, 0, 0, 0, 255, 255, a, b, c, d]
  | _ => none

/-- The parsers on which the lease reader is evaluated where a concrete `Net`
is needed. -/
def sampleNet : Net where
  ParseIP := dottedParseIP
  ParseMAC := colonParseMAC

/-- A lease directory on which the reader is evaluated: a current file, a
rotated file with another column order, and a file with malformed lines; every
other path is missing. -/
def sampleFS : FS := fun path =>
  if path = "dhcp4.leases" then
    .file ["address,hwaddr,expire,hostname",
      "10.0.0.1,00:01:02:03:04:05,10,x",
      "10.0.0.2,00:01:02:03:04:05,20,y",
      "10.0.0.3,00:01:02:03:04:04,20,z",
      "10.0.0.4,00:01:02:03:04:05,20,w"]
  else if path = "dhcp4.leases.2" then
    .file ["hostname,expire,hwaddr,address",
      "y,20,00:01:02:03:04:05,10.0.0.2"]
  else if path = "bad.leases" then
    .file ["address,hwaddr,expire,hostname",
      "10.0.0.1,00:01:02:03:04:05,-5,a",
      "10.0.0.2,00:01:02:03:04:05,soon,b",
      "10.0.0.3,bogus,100,c",
      "10.0.0,00:01:02:03:04:09,100,d"]
  else .notExist

/-- The 16-byte form of `10.0.0.n`. -/
def ip10 (n : Fin 256) : IP := [0, 0, 0, 0, 0, 0, 0, 0, 0, 0, 255, 255, 10, 0, 0, n]

/-- The database of `TestBoltDB` after its first two claims. -/
def testDB : BoltDatabase :=
  (ClaimDevice lineJSON
    (ClaimDevice lineJSON ⟨Bucket.empty⟩ "jane" [0, 1, 2, 3, 4, 5] "stinkpad").db
    "joe" [0, 1, 2, 3, 4, 6] "crapbook").db

/-- The database of `TestBoltDB` after joe's second claim of his device. -/
def testDB2 : BoltDatabase :=
  (ClaimDevice lineJSON testDB "joe" [0, 1, 2, 3, 4, 6] "crapbook2").db

/-- The database of `TestBoltDB` after jane has unclaimed her device. -/
def testDB3 : BoltDatabase :=
  (UnclaimDevice lineJSON testDB2 "jane" [0, 1, 2, 3, 4, 5]).db

/-- A lease directory with one more file, whose header lacks the column
`expire`; every other path is as in `sampleFS`. -/
def brokenFS : FS := fun path =>
  if path = "broken.leases" then
    .file ["address,hwaddr,hostname",
      "10.0.0.9,00:01:02:03:04:09,q"]
  else sampleFS path

/-- The header line of `dhcp4.leases` in `sampleFS`. -/
def dhcpHeader : String := "address,hwaddr,expire,hostname"

/-- The data lines of `dhcp4.leases` in `sampleFS`. -/
def dhcpLines : List String :=
  ["10.0.0.1,00:01:02:03:04:05,10,x",
   "10.0.0.2,00:01:02:03:04:05,20,y",
   "10.0.0.3,00:01:02:03:04:04,20,z",
   "10.0.0.4,00:01:02:03:04:05,20,w"]

/-- A lease directory with one more file, in which one address has the expire
values 10 and 9223372036854775807 (the largest `int64`); every other path is
as in `sampleFS`. -/
def farFS : FS := fun path =>
  if path = "far.leases" then
    .file ["address,hwaddr,expire,hostname",
      "10.0.0.1,00:01:02:03:04:05,10,x",
      "10.0.0.2,00:01:02:03:04:05,9223372036854775807,y"]
  else sampleFS path

/-- A nonce on which the session codec is evaluated. -/
def sampleNonce : Nonce :=
  ⟨[1, 2, 3, 4, 5, 6, 7, 8, 9, 10, 11, 12, 13, 14, 15, 16, 17, 18, 19, 20, 21, 22, 23, 24], rfl⟩

/-- The bytes of an ASCII string. -/
def asciiBytes (s : String) : Bytes :=
  s.data.map (fun c => Fin.ofNat c.toNat)

/-- The ASCII string of a list of bytes. -/
def asciiString (b : Bytes) : String :=
  String.mk (b.map (fun x => Char.ofNat x.val))

/-- Two hex digits per byte. -/
def hexEncode : Bytes → List Char
  | [] => []
  | b :: rest => hexDigit (b.val / 16) :: hexDigit (b.val % 16) :: hexEncode rest

/-- The inverse of `hexEncode`, `none` on an odd length or a non-hex digit. -/
def hexDecode : List Char → Option Bytes
  | [] => some []
  | [_] => none
  | h :: l :: rest =>
    match hexValue h, hexValue l, hexDecode rest with
    | some x, some y, some bs => some (Fin.ofNat (16 * x + y) :: bs)
    | _, _, _ => none

/-- Splitting a byte list at every occurrence of `sep`; `cur` holds the
current piece, reversed. -/
def splitBytes (sep : Fin 256) : Bytes → Bytes → List Bytes
  | [], cur => [cur.reverse]
  | b :: bs, cur =>
    if b = sep then cur.reverse :: splitBytes sep bs [] else splitBytes sep bs (b :: cur)

/-- Stand-ins for the libraries of `sessions.go` on which the session codec is
evaluated where a concrete `SessionLib` is needed: the key is the secret's
bytes, a box is the key, the nonce and the message in the clear (it opens only
under the same key and nonce), the text encoding is hexadecimal, a session is
serialised one field per line. -/
def sampleLib : SessionLib where
  Sum256 secret := asciiBytes secret
  Seal message nonce key := key ++ nonce.bytes ++ message
  Open box nonce key :=
    if (key ++ nonce.bytes).isPrefixOf box then some (box.drop (key ++ nonce.bytes).length)
    else none
  EncodeToString b := String.mk (hexEncode b)
  DecodeString s := hexDecode s.data
  Marshal d :=
    asciiBytes d.Username ++ 10 :: asciiBytes d.OAuthState ++ 10 :: asciiBytes d.OAuthVerifier
  Unmarshal b :=
    match splitBytes 10 b [] with
    | [u, st, v] => some ⟨asciiString u, asciiString st, asciiString v⟩
    | _ => none

/-- The clock that reads second 62135596815 (Unix second 15) and no
nanoseconds at every call. -/
def sampleClock : Nat → Instant := fun _ => ⟨62135596815, 0⟩

/-- The empty database after alice has claimed `00:01:02:03:04:05`. -/
def aliceDB : BoltDatabase :=
  (ClaimDevice lineJSON ⟨Bucket.empty⟩ "alice" [0, 1, 2, 3, 4, 5] "laptop").db

/-! ## Facts about the bucket -/

theorem Bucket.ext_entries {a b : Bucket} (h : a.entries = b.entries) : a = b := by
  cases a; cases b; cases h; rfl

theorem Bucket.find_putEntries_same (l : List (String × String)) (key value : String) :
    (Bucket.putEntries l key value).find? (fun e => decide (e.1 = key)) = some (key, value) := by
  unfold Bucket.putEntries
  rw [List.find?_append]
  have h1 : (l.filter (fun e => decide (strLess e.1 key))).find? (fun e => decide (e.1 = key))
      = none := by
    rw [List.find?_eq_none]
    intro e he
    have h : strLess e.1 key := by simpa using (List.mem_filter.mp he).2
    have hne : e.1 ≠ key := fun heq => by
      rw [heq] at h
      exact lt_irrefl _ h
    simpa using hne
  rw [h1]
  simp

theorem Bucket.find_putEntries_other (l : List (String × String)) (key value k : String)
    (hk : k ≠ key) :
    (Bucket.putEntries l key value).find? (fun e => decide (e.1 = k))
      = l.find? (fun e => decide (e.1 = k)) := by
  unfold Bucket.putEntries
  have hkey : ¬ (key = k) := fun h => hk h.symm
  rw [List.find?_append, List.find?_cons, List.find?_filter, List.find?_filter]
  simp only [hkey, decide_False]
  have hd : k.data ≠ key.data := fun h => hk (String.ext h)
  rcases lt_or_gt_of_ne hd with hlt | hgt
  · have e1 : (fun a : String × String =>
        decide (decide (strLess a.1 key) = true ∧ decide (a.1 = k) = true))
        = (fun e => decide (e.1 = k)) := by
      funext a
      by_cases ha : a.1 = k
      · subst ha
        simp [hlt]
      · simp [ha]
    have e2 : l.find? (fun a : String × String =>
        decide (decide (strLess key a.1) = true ∧ decide (a.1 = k) = true)) = none := by
      rw [List.find?_eq_none]
      intro a _
      by_cases ha : a.1 = k
      · subst ha
        simp [not_lt_of_gt hlt]
      · simp [ha]
    rw [e1, e2]
    simp
  · have e1 : (fun a : String × String =>
        decide (decide (strLess key a.1) = true ∧ decide (a.1 = k) = true))
        = (fun e => decide (e.1 = k)) := by
      funext a
      by_cases ha : a.1 = k
      · subst ha
        simp [hgt]
      · simp [ha]
    have e2 : l.find? (fun a : String × String =>
        decide (decide (strLess a.1 key) = true ∧ decide (a.1 = k) = true)) = none := by
      rw [List.find?_eq_none]
      intro a _
      by_cases ha : a.1 = k
      · subst ha
        simp [not_lt_of_gt hgt]
      · simp [ha]
    rw [e1, e2]
    simp

theorem Bucket.find_filter_ne_same (l : List (String × String)) (key : String) :
    (l.filter (fun e => decide (e.1 ≠ key))).find? (fun e => decide (e.1 = key)) = none := by
  rw [List.find?_eq_none]
  intro e he
  have h : e.1 ≠ key := by simpa using (List.mem_filter.mp he).2
  simpa using h

theorem Bucket.find_filter_ne_other (l : List (String × String)) (key k : String)
    (hk : k ≠ key) :
    (l.filter (fun e => decide (e.1 ≠ key))).find? (fun e => decide (e.1 = k))
      = l.find? (fun e => decide (e.1 = k)) := by
  rw [List.find?_filter]
  congr 1
  funext a
  by_cases ha : a.1 = k
  · subst ha
    simp [hk]
  · simp [ha]

theorem Bucket.filter_ne_of_absent (l : List (String × String)) (key : String)
    (h : l.find? (fun e => decide (e.1 = key)) = none) :
    l.filter (fun e => decide (e.1 ≠ key)) = l := by
  rw [List.filter_eq_self]
  intro e he
  have := (List.find?_eq_none.mp h) e he
  simpa using this

theorem Bucket.Get_eq_none_iff (b : Bucket) (key : String) :
    b.Get key = none ↔ b.entries.find? (fun e => decide (e.1 = key)) = none := by
  unfold Bucket.Get
  simp

theorem Bucket.Get_Put_same (b b' : Bucket) (key value : String)
    (h : b.Put key value = .ok b') : b'.Get key = some value := by
  unfold Bucket.Put at h
  split_ifs at h
  cases h
  simp [Bucket.Get, Bucket.find_putEntries_same]

theorem Bucket.Get_Put_other (b b' : Bucket) (key value k : String)
    (h : b.Put key value = .ok b') (hk : k ≠ key) : b'.Get k = b.Get k := by
  unfold Bucket.Put at h
  split_ifs at h
  cases h
  simp [Bucket.Get, Bucket.find_putEntries_other _ _ _ _ hk]

/-! ## Size of a formatted hardware address -/

theorem hexDigit_utf8Size (n : Nat) : (hexDigit n).utf8Size = 1 := by
  unfold hexDigit
  by_cases h : n < 16
  · interval_cases n <;> rfl
  · have h16 : "0123456789abcdef".data.length ≤ n := by
      have : "0123456789abcdef".data.length = 16 := by decide
      omega
    rw [List.getD_eq_default _ _ h16]
    rfl

theorem HardwareAddr.format_size (l : List (Fin 256)) :
    String.utf8ByteSize.go (HardwareAddr.format false l) = 3 * l.length
    ∧ String.utf8ByteSize.go (HardwareAddr.format true l) = 3 * l.length - 1 := by
  induction l with
  | nil => exact ⟨rfl, rfl⟩
  | cons b rest ih =>
    have hc : (':' : Char).utf8Size = 1 := rfl
    constructor
    · simp only [HardwareAddr.format, Bool.false_eq_true, if_false, String.utf8ByteSize.go,
        hexDigit_utf8Size, hc, ih.1, List.length_cons]
      omega
    · simp only [HardwareAddr.format, if_true, String.utf8ByteSize.go,
        hexDigit_utf8Size, ih.1, List.length_cons]
      omega

theorem HardwareAddr.String_size (a : HardwareAddr) :
    (HardwareAddr.String a).utf8ByteSize = 3 * a.length - 1 :=
  (HardwareAddr.format_size a).2

/-! ## ClaimDevice and UnclaimDevice -/

/-- C1: when the bucket holds, under the string form of the MAC address, a
record that decodes to a device owned by somebody else, `ClaimDevice` returns
the error "device already claimed" and the database afterwards is the database
before (every key, that record's owner and hostname included). -/
theorem ClaimDevice_other_owner (json : JSON) (b : BoltDatabase) (user : String)
    (macAddress : HardwareAddr) (hostname : String) (v : String) (existing : Device)
    (hget : b.devices.Get (HardwareAddr.String macAddress) = some v)
    (hdec : json.Unmarshal v = some existing)
    (howner : existing.UserNickname ≠ user) :
    (ClaimDevice json b user macAddress hostname).err = some Err.alreadyClaimed
    ∧ (ClaimDevice json b user macAddress hostname).db = b := by
  simp [ClaimDevice, BoltDatabase.Update, getDeviceForMacAddress, hget, hdec, ownedByOther,
    howner]

theorem ClaimDevice_other_owner_witness :
    testDB.devices.Get (HardwareAddr.String [0, 1, 2, 3, 4, 5])
        = some "00:01:02:03:04:05\nstinkpad\njane"
    ∧ lineJSON.Unmarshal "00:01:02:03:04:05\nstinkpad\njane"
        = some ⟨"00:01:02:03:04:05", "stinkpad", "jane"⟩
    ∧ (ClaimDevice lineJSON testDB "joe" [0, 1, 2, 3, 4, 5] "crapbook").err
        = some Err.alreadyClaimed
    ∧ (ClaimDevice lineJSON testDB "joe" [0, 1, 2, 3, 4, 5] "crapbook").db = testDB :=
  ⟨by decide, by decide,
    ClaimDevice_other_owner lineJSON testDB "joe" [0, 1, 2, 3, 4, 5] "crapbook"
      "00:01:02:03:04:05\nstinkpad\njane" ⟨"00:01:02:03:04:05", "stinkpad", "jane"⟩
      (by decide) (by decide) (by decide)⟩

/-- C2, as stated, fails: on the empty database nothing is stored under the
empty hardware address, yet claiming it returns bbolt's "key required" and
stores nothing. -/
theorem ClaimDevice_empty_address_fails :
    getDeviceForMacAddress lineJSON Bucket.empty [] = .ok none
    ∧ (ClaimDevice lineJSON ⟨Bucket.empty⟩ "jane" [] "stinkpad").err = some Err.ErrKeyRequired
    ∧ (ClaimDevice lineJSON ⟨Bucket.empty⟩ "jane" [] "stinkpad").db.devices.entries = [] :=
  ⟨rfl, by decide, by decide⟩

/-- C2, amended: for a hardware address of 1 to 10923 bytes (a key of 1 to
`MaxKeySize` bytes) and a serialised record of at most `MaxValueSize` bytes,
when the bucket holds no record under the address or one that decodes to a
device of the same user, `ClaimDevice` returns `nil`; afterwards the value
under the string form of the address is the serialisation of
`{mac_address = that string, hostname, user_nickname = user}`, every other
key holds what it held, and where the codec reads back what it wrote the
lookup of the address yields that device. -/
theorem ClaimDevice_free_or_own (json : JSON) (b : BoltDatabase) (user : String)
    (macAddress : HardwareAddr) (hostname : String)
    (hfree : getDeviceForMacAddress json b.devices macAddress = .ok none
      ∨ ∃ e, getDeviceForMacAddress json b.devices macAddress = .ok (some e)
          ∧ e.UserNickname = user)
    (hne : macAddress ≠ []) (hlen : macAddress.length ≤ 10923)
    (hval : (json.Marshal ⟨HardwareAddr.String macAddress, hostname, user⟩).utf8ByteSize
      ≤ MaxValueSize) :
    (ClaimDevice json b user macAddress hostname).err = none
    ∧ (ClaimDevice json b user macAddress hostname).db.devices.Get
        (HardwareAddr.String macAddress)
        = some (json.Marshal ⟨HardwareAddr.String macAddress, hostname, user⟩)
    ∧ (∀ k, k ≠ HardwareAddr.String macAddress →
        (ClaimDevice json b user macAddress hostname).db.devices.Get k = b.devices.Get k)
    ∧ (json.Unmarshal (json.Marshal ⟨HardwareAddr.String macAddress, hostname, user⟩)
          = some ⟨HardwareAddr.String macAddress, hostname, user⟩ →
        getDeviceForMacAddress json (ClaimDevice json b user macAddress hostname).db.devices
          macAddress = .ok (some ⟨HardwareAddr.String macAddress, hostname, user⟩)) := by
  have hpos : 0 < macAddress.length := List.length_pos.mpr hne
  have hsize := HardwareAddr.String_size macAddress
  have hk1 : ¬ (HardwareAddr.String macAddress).utf8ByteSize = 0 := by omega
  have hk2 : ¬ (HardwareAddr.String macAddress).utf8ByteSize > MaxKeySize := by
    unfold MaxKeySize
    omega
  have hv : ¬ (json.Marshal ⟨HardwareAddr.String macAddress, hostname, user⟩).utf8ByteSize
      > MaxValueSize := not_lt.mpr hval
  have hput : ∃ b', b.devices.Put (HardwareAddr.String macAddress)
      (json.Marshal ⟨HardwareAddr.String macAddress, hostname, user⟩) = .ok b' := by
    simp [Bucket.Put, hk1, hk2, hv]
  obtain ⟨b', hb'⟩ := hput
  have hres : ClaimDevice json b user macAddress hostname = ⟨none, ⟨b'⟩⟩ := by
    rcases hfree with h | ⟨e, h, he⟩
    · simp [ClaimDevice, BoltDatabase.Update, h, ownedByOther, hb']
    · simp [ClaimDevice, BoltDatabase.Update, h, ownedByOther, he, hb']
  rw [hres]
  refine ⟨rfl, Bucket.Get_Put_same _ _ _ _ hb', ?_, ?_⟩
  · intro k hk
    exact Bucket.Get_Put_other _ _ _ _ _ hb' hk
  · intro hrt
    simp [getDeviceForMacAddress, Bucket.Get_Put_same _ _ _ _ hb', hrt]

theorem ClaimDevice_free_or_own_witness :
    (ClaimDevice lineJSON testDB "joe" [0, 1, 2, 3, 4, 6] "crapbook2").err = none
    ∧ (ClaimDevice lineJSON testDB "joe" [0, 1, 2, 3, 4, 6] "crapbook2").db.devices.Get
        (HardwareAddr.String [0, 1, 2, 3, 4, 6])
        = some (lineJSON.Marshal ⟨HardwareAddr.String [0, 1, 2, 3, 4, 6], "crapbook2", "joe"⟩)
    ∧ (∀ k, k ≠ HardwareAddr.String [0, 1, 2, 3, 4, 6] →
        (ClaimDevice lineJSON testDB "joe" [0, 1, 2, 3, 4, 6] "crapbook2").db.devices.Get k
          = testDB.devices.Get k)
    ∧ (lineJSON.Unmarshal
          (lineJSON.Marshal ⟨HardwareAddr.String [0, 1, 2, 3, 4, 6], "crapbook2", "joe"⟩)
          = some ⟨HardwareAddr.String [0, 1, 2, 3, 4, 6], "crapbook2", "joe"⟩ →
        getDeviceForMacAddress lineJSON
          (ClaimDevice lineJSON testDB "joe" [0, 1, 2, 3, 4, 6] "crapbook2").db.devices
          [0, 1, 2, 3, 4, 6]
          = .ok (some ⟨HardwareAddr.String [0, 1, 2, 3, 4, 6], "crapbook2", "joe"⟩)) :=
  ClaimDevice_free_or_own lineJSON testDB "joe" [0, 1, 2, 3, 4, 6] "crapbook2"
    (Or.inr ⟨⟨"00:01:02:03:04:06", "crapbook", "joe"⟩, rfl, rfl⟩)
    (by decide) (by decide) (by decide)

/-- C3: when the bucket holds, under the string form of the MAC address, a
record that decodes to a device owned by somebody else, `UnclaimDevice`
returns the error "device does not belong to user" and the database afterwards
is the database before, so the record is still there with its owner and
hostname. -/
theorem UnclaimDevice_other_owner (json : JSON) (b : BoltDatabase) (user : String)
    (macAddress : HardwareAddr) (v : String) (device : Device)
    (hget : b.devices.Get (HardwareAddr.String macAddress) = some v)
    (hdec : json.Unmarshal v = some device)
    (howner : device.UserNickname ≠ user) :
    (UnclaimDevice json b user macAddress).err = some Err.notOwner
    ∧ (UnclaimDevice json b user macAddress).db = b
    ∧ getDeviceForMacAddress json (UnclaimDevice json b user macAddress).db.devices macAddress
        = .ok (some device) := by
  have h1 : UnclaimDevice json b user macAddress = ⟨some Err.notOwner, b⟩ := by
    simp [UnclaimDevice, BoltDatabase.Update, getDeviceForMacAddress, hget, hdec, ownedByOther,
      howner]
  rw [h1]
  simp [getDeviceForMacAddress, hget, hdec]

theorem UnclaimDevice_other_owner_witness :
    testDB.devices.Get (HardwareAddr.String [0, 1, 2, 3, 4, 6])
        = some "00:01:02:03:04:06\ncrapbook\njoe"
    ∧ lineJSON.Unmarshal "00:01:02:03:04:06\ncrapbook\njoe"
        = some ⟨"00:01:02:03:04:06", "crapbook", "joe"⟩
    ∧ (UnclaimDevice lineJSON testDB "jane" [0, 1, 2, 3, 4, 6]).err = some Err.notOwner
    ∧ (UnclaimDevice lineJSON testDB "jane" [0, 1, 2, 3, 4, 6]).db = testDB
    ∧ getDeviceForMacAddress lineJSON
        (UnclaimDevice lineJSON testDB "jane" [0, 1, 2, 3, 4, 6]).db.devices [0, 1, 2, 3, 4, 6]
        = .ok (some ⟨"00:01:02:03:04:06", "crapbook", "joe"⟩) :=
  ⟨by decide, by decide,
    UnclaimDevice_other_owner lineJSON testDB "jane" [0, 1, 2, 3, 4, 6]
      "00:01:02:03:04:06\ncrapbook\njoe" ⟨"00:01:02:03:04:06", "crapbook", "joe"⟩
      (by decide) (by decide) (by decide)⟩

/-- C4: when the bucket holds nothing under the string form of the MAC
address, `UnclaimDevice` returns `nil` and the database afterwards is the
database before; when it holds a record that decodes to a device of the user,
`UnclaimDevice` returns `nil`, the entries afterwards are the entries before
without that key (the key is absent, every other key holds what it held), and
`GetDevicesForMacAddresses` for that address returns the empty list. -/
theorem UnclaimDevice_absent_or_own (json : JSON) (b : BoltDatabase) (user : String)
    (macAddress : HardwareAddr) :
    (b.devices.Get (HardwareAddr.String macAddress) = none →
      (UnclaimDevice json b user macAddress).err = none
      ∧ (UnclaimDevice json b user macAddress).db = b)
    ∧ (∀ v device, b.devices.Get (HardwareAddr.String macAddress) = some v →
      json.Unmarshal v = some device → device.UserNickname = user →
      (UnclaimDevice json b user macAddress).err = none
      ∧ (UnclaimDevice json b user macAddress).db.devices.entries
          = b.devices.entries.filter (fun e => decide (e.1 ≠ HardwareAddr.String macAddress))
      ∧ (UnclaimDevice json b user macAddress).db.devices.Get (HardwareAddr.String macAddress)
          = none
      ∧ (∀ k, k ≠ HardwareAddr.String macAddress →
          (UnclaimDevice json b user macAddress).db.devices.Get k = b.devices.Get k)
      ∧ GetDevicesForMacAddresses json (UnclaimDevice json b user macAddress).db [macAddress]
          = .ok []) := by
  constructor
  · intro hget
    have hd : b.devices.Delete (HardwareAddr.String macAddress) = .ok b.devices := by
      unfold Bucket.Delete
      congr 1
      exact Bucket.ext_entries
        (Bucket.filter_ne_of_absent _ _ ((Bucket.Get_eq_none_iff _ _).mp hget))
    simp [UnclaimDevice, BoltDatabase.Update, getDeviceForMacAddress, hget, ownedByOther, hd]
  · intro v device hget hdec howner
    have h1 : UnclaimDevice json b user macAddress
        = ⟨none, ⟨⟨b.devices.entries.filter
            (fun e => decide (e.1 ≠ HardwareAddr.String macAddress)),
            b.devices.ordered.filter _⟩⟩⟩ := by
      simp [UnclaimDevice, BoltDatabase.Update, getDeviceForMacAddress, hget, hdec,
        ownedByOther, howner, Bucket.Delete]
    rw [h1]
    have hgone : (⟨b.devices.entries.filter
        (fun e => decide (e.1 ≠ HardwareAddr.String macAddress)),
        b.devices.ordered.filter _⟩ : Bucket).Get (HardwareAddr.String macAddress) = none := by
      simp only [Bucket.Get, Bucket.find_filter_ne_same, Option.map_none']
    refine ⟨rfl, rfl, hgone, ?_, ?_⟩
    · intro k hk
      simp only [Bucket.Get, Bucket.find_filter_ne_other _ _ _ hk]
    · simp only [GetDevicesForMacAddresses, GetDevicesForMacAddresses.loop,
        getDeviceForMacAddress, hgone]
      rfl

theorem UnclaimDevice_absent_or_own_witness :
    (testDB.devices.Get (HardwareAddr.String [0, 1, 2, 3, 4, 7]) = none
      ∧ (UnclaimDevice lineJSON testDB "jane" [0, 1, 2, 3, 4, 7]).err = none
      ∧ (UnclaimDevice lineJSON testDB "jane" [0, 1, 2, 3, 4, 7]).db = testDB)
    ∧ (testDB.devices.Get (HardwareAddr.String [0, 1, 2, 3, 4, 5])
          = some "00:01:02:03:04:05\nstinkpad\njane"
      ∧ (UnclaimDevice lineJSON testDB "jane" [0, 1, 2, 3, 4, 5]).err = none
      ∧ (UnclaimDevice lineJSON testDB "jane" [0, 1, 2, 3, 4, 5]).db.devices.entries
          = [("00:01:02:03:04:06", "00:01:02:03:04:06\ncrapbook\njoe")]
      ∧ GetDevicesForMacAddresses lineJSON
          (UnclaimDevice lineJSON testDB "jane" [0, 1, 2, 3, 4, 5]).db [[0, 1, 2, 3, 4, 5]]
          = .ok []) :=
  ⟨⟨by decide,
    (UnclaimDevice_absent_or_own lineJSON testDB "jane" [0, 1, 2, 3, 4, 7]).1 (by decide)⟩,
   by decide,
   ((UnclaimDevice_absent_or_own lineJSON testDB "jane" [0, 1, 2, 3, 4, 5]).2
      "00:01:02:03:04:05\nstinkpad\njane" ⟨"00:01:02:03:04:05", "stinkpad", "jane"⟩
      (by decide) (by decide) (by decide)).1,
   by decide,
   ((UnclaimDevice_absent_or_own lineJSON testDB "jane" [0, 1, 2, 3, 4, 5]).2
      "00:01:02:03:04:05\nstinkpad\njane" ⟨"00:01:02:03:04:05", "stinkpad", "jane"⟩
      (by decide) (by decide) (by decide)).2.2.2.2⟩

/-! ## The two lookups -/

theorem sortByMACAddress_sorted (res : List Device) :
    (sortByMACAddress res).Sorted (fun a b => strLessEq a.MACAddress b.MACAddress) := by
  haveI : IsTotal Device (fun a b => strLessEq a.MACAddress b.MACAddress) :=
    ⟨fun a b => le_total a.MACAddress.data b.MACAddress.data⟩
  haveI : IsTrans Device (fun a b => strLessEq a.MACAddress b.MACAddress) :=
    ⟨fun _ _ _ h1 h2 => le_trans h1 h2⟩
  exact List.sorted_insertionSort _ res

theorem sortByMACAddress_perm (res : List Device) : (sortByMACAddress res).Perm res :=
  List.perm_insertionSort _ res

theorem GetDevicesForMacAddresses.loop_lookup (json : JSON) (devices : Bucket)
    (macs : List HardwareAddr) (res : List Device) :
    GetDevicesForMacAddresses.loop json devices macs res
      = res ++ macs.filterMap
          (fun m => (devices.Get (HardwareAddr.String m)).bind json.Unmarshal) := by
  induction macs generalizing res with
  | nil => simp [GetDevicesForMacAddresses.loop]
  | cons m rest ih =>
    unfold GetDevicesForMacAddresses.loop getDeviceForMacAddress
    cases hget : devices.Get (HardwareAddr.String m) with
    | none => simp [ih, hget]
    | some v =>
      cases hdec : json.Unmarshal v with
      | none => simp [ih, hget, hdec]
      | some d => simp [ih, hget, hdec]

theorem GetDevicesForUser.loop_scan (json : JSON) (user : String)
    (entries : List (String × String)) (res : List Device) :
    GetDevicesForUser.loop json user entries res
      = res ++ entries.filterMap
          (fun e => (json.Unmarshal e.2).bind
            (fun d => if d.UserNickname = user then some d else none)) := by
  induction entries generalizing res with
  | nil => simp [GetDevicesForUser.loop]
  | cons e rest ih =>
    obtain ⟨k, v⟩ := e
    unfold GetDevicesForUser.loop
    cases hdec : json.Unmarshal v with
    | none => simp [ih, hdec]
    | some d =>
      by_cases hu : d.UserNickname = user
      · simp [ih, hdec, hu]
      · simp [ih, hdec, hu]

theorem Bucket.mem_entries_iff_Get (b : Bucket) (k v : String) :
    (k, v) ∈ b.entries ↔ b.Get k = some v := by
  obtain ⟨l, hl⟩ := b
  simp only [Bucket.Get]
  induction l with
  | nil => simp
  | cons e rest ih =>
    rw [List.pairwise_cons] at hl
    by_cases hk : e.1 = k
    · simp only [List.find?_cons, hk, decide_True, Option.map_some', Option.some.injEq,
        List.mem_cons]
      constructor
      · rintro (h | h)
        · rw [← h]
        · have := hl.1 _ h
          rw [hk] at this
          exact absurd this (lt_irrefl _)
      · intro h
        left
        rw [← h, ← hk]
    · have hne : (k, v) ≠ e := fun h => hk (by rw [← h])
      simp only [List.find?_cons, hk, decide_False, List.mem_cons, hne, false_or]
      exact ih hl.2

/-- C5: `GetDevicesForMacAddresses` returns `nil` as error and a list that is
ascending in `MACAddress`, that is a rearrangement of the devices decoded from
the records of the requested addresses in request order (an address with no
record, or with a record that does not decode, contributes nothing), so a
device is in the result exactly when it is the decoded record of a requested
address. -/
theorem GetDevicesForMacAddresses_sorted_lookup (json : JSON) (b : BoltDatabase)
    (macAddresses : List HardwareAddr) :
    ∃ res, GetDevicesForMacAddresses json b macAddresses = .ok res
      ∧ res.Sorted (fun x y => strLessEq x.MACAddress y.MACAddress)
      ∧ res.Perm (macAddresses.filterMap
          (fun m => (b.devices.Get (HardwareAddr.String m)).bind json.Unmarshal))
      ∧ ∀ d, d ∈ res ↔ ∃ m ∈ macAddresses, ∃ v,
          b.devices.Get (HardwareAddr.String m) = some v ∧ json.Unmarshal v = some d := by
  refine ⟨_, rfl, sortByMACAddress_sorted _, ?_, ?_⟩
  · rw [GetDevicesForMacAddresses.loop_lookup]
    simpa using sortByMACAddress_perm _
  · intro d
    rw [(sortByMACAddress_perm _).mem_iff, GetDevicesForMacAddresses.loop_lookup]
    simp only [List.nil_append, List.mem_filterMap, Option.bind_eq_some]

/-- C6: `GetDevicesForUser` returns `nil` as error and a list that is
ascending in `MACAddress` and is a rearrangement of the devices decoded from
the bucket's records, one per record, that have `UserNickname = user` (records
that do not decode and devices of other users contribute nothing), so a device
is in the result exactly when some key holds a record decoding to it and it is
owned by the user. -/
theorem GetDevicesForUser_sorted_owned (json : JSON) (b : BoltDatabase) (user : String) :
    ∃ res, GetDevicesForUser json b user = .ok res
      ∧ res.Sorted (fun x y => strLessEq x.MACAddress y.MACAddress)
      ∧ res.Perm (b.devices.entries.filterMap
          (fun e => (json.Unmarshal e.2).bind
            (fun d => if d.UserNickname = user then some d else none)))
      ∧ (∀ d, d ∈ res ↔ ∃ k v, b.devices.Get k = some v ∧ json.Unmarshal v = some d
          ∧ d.UserNickname = user)
      ∧ ∀ d ∈ res, d.UserNickname = user := by
  have hmem : ∀ d, d ∈ sortByMACAddress (GetDevicesForUser.loop json user b.devices.entries [])
      ↔ ∃ k v, b.devices.Get k = some v ∧ json.Unmarshal v = some d
          ∧ d.UserNickname = user := by
    intro d
    rw [(sortByMACAddress_perm _).mem_iff, GetDevicesForUser.loop_scan]
    simp only [List.nil_append, List.mem_filterMap, Option.bind_eq_some, Prod.exists]
    constructor
    · rintro ⟨k, v, hkv, d', hdec, hif⟩
      by_cases hu : d'.UserNickname = user
      · rw [if_pos hu] at hif
        cases hif
        exact ⟨k, v, (Bucket.mem_entries_iff_Get _ _ _).mp hkv, hdec, hu⟩
      · rw [if_neg hu] at hif
        cases hif
    · rintro ⟨k, v, hget, hdec, hu⟩
      exact ⟨k, v, (Bucket.mem_entries_iff_Get _ _ _).mpr hget, d, hdec, by rw [if_pos hu]⟩
  refine ⟨_, rfl, sortByMACAddress_sorted _, ?_, hmem, ?_⟩
  · rw [GetDevicesForUser.loop_scan]
    simpa using sortByMACAddress_perm _
  · intro d hd
    obtain ⟨_, _, _, _, hu⟩ := (hmem d).mp hd
    exact hu

/-! ## The string form of a hardware address determines it -/

theorem hexDigit_injective : ∀ a b : Fin 16, hexDigit a.val = hexDigit b.val → a = b := by
  decide

theorem hexDigit_pair_injective (x y : Fin 256)
    (hhi : hexDigit (x.val / 16) = hexDigit (y.val / 16))
    (hlo : hexDigit (x.val % 16) = hexDigit (y.val % 16)) : x = y := by
  have hx := x.isLt
  have hy := y.isLt
  have h1 := hexDigit_injective ⟨x.val / 16, by omega⟩ ⟨y.val / 16, by omega⟩ hhi
  have h2 := hexDigit_injective ⟨x.val % 16, by omega⟩ ⟨y.val % 16, by omega⟩ hlo
  have h1' : x.val / 16 = y.val / 16 := by simpa using congrArg Fin.val h1
  have h2' : x.val % 16 = y.val % 16 := by simpa using congrArg Fin.val h2
  apply Fin.ext
  omega

theorem HardwareAddr.format_injective (a : List (Fin 256)) :
    ∀ b, (HardwareAddr.format false a = HardwareAddr.format false b → a = b)
      ∧ (HardwareAddr.format true a = HardwareAddr.format true b → a = b) := by
  induction a with
  | nil =>
    intro b
    cases b with
    | nil => simp
    | cons y ys => simp [HardwareAddr.format]
  | cons x xs ih =>
    intro b
    cases b with
    | nil => simp [HardwareAddr.format]
    | cons y ys =>
      constructor
      · intro h
        simp only [HardwareAddr.format, Bool.false_eq_true, if_false, List.cons.injEq,
          true_and] at h
        rw [hexDigit_pair_injective x y h.1 h.2.1, (ih ys).1 h.2.2]
      · intro h
        simp only [HardwareAddr.format, if_true, List.cons.injEq] at h
        rw [hexDigit_pair_injective x y h.1 h.2.1, (ih ys).1 h.2.2]

theorem HardwareAddr.String_injective (a b : HardwareAddr)
    (h : HardwareAddr.String a = HardwareAddr.String b) : a = b := by
  unfold HardwareAddr.String at h
  exact (HardwareAddr.format_injective a b).2 (congrArg String.data h)

/-! ## The scan loop of `leases` -/

theorem GoMap.mem_of_get? {T : Type} (m : GoMap T) (k : String) (v : T)
    (h : m.get? k = some v) : (k, v) ∈ m := by
  unfold GoMap.get? at h
  cases hf : m.find? (fun e => decide (e.1 = k)) with
  | none => simp [hf] at h
  | some e =>
    rw [hf] at h
    have hk : e.1 = k := by simpa using List.find?_some hf
    have hv : e.2 = v := by simpa using h
    have hm := List.mem_of_find?_eq_some hf
    rw [← hk, ← hv]
    exact hm

theorem GoMap.not_mem_of_get? {T : Type} (m : GoMap T) (k : String)
    (h : m.get? k = none) : ∀ e ∈ m, e.1 ≠ k := by
  unfold GoMap.get? at h
  have hf : m.find? (fun e => decide (e.1 = k)) = none := by simpa using h
  intro e he
  simpa using (List.find?_eq_none.mp hf) e he

theorem GoMap.mem_set {T : Type} (m : GoMap T) (k : String) (v : T) (e : String × T) :
    e ∈ m.set k v ↔ e = (k, v) ∨ (e ∈ m ∧ e.1 ≠ k) := by
  simp [GoMap.set, List.mem_filter]

theorem GoMap.nodup_set {T : Type} (m : GoMap T) (k : String) (v : T)
    (h : (m.map Prod.fst).Nodup) : ((m.set k v).map Prod.fst).Nodup := by
  unfold GoMap.set
  rw [List.map_cons, List.nodup_cons]
  constructor
  · intro hk
    obtain ⟨e, he, hek⟩ := List.mem_map.mp hk
    have := (List.mem_filter.mp he).2
    simp at this
    exact this hek
  · exact h.sublist ((List.filter_sublist _).map _)

theorem Time.After_irrefl (t : Time) : t.After t = false := by
  simp [Time.After]

theorem leases.Merged.nil : leases.Merged [] [] :=
  ⟨List.nodup_nil, by simp, by simp, by simp, by simp, by simp⟩

theorem leases.Merged.unique {recs : List Lease} {m : GoMap Lease} (h : leases.Merged recs m)
    {e x : String × Lease} (he : e ∈ m) (hx : x ∈ m)
    (hmac : e.2.MACAddress = x.2.MACAddress) : e = x := by
  apply List.inj_on_of_nodup_map h.nodup he hx
  rw [h.key e he, h.key x hx, hmac]

theorem leases.Merged.insert {pre : List Lease} {m : GoMap Lease} (h : leases.Merged pre m)
    (l : Lease)
    (hbeat : ∀ x ∈ pre, x.MACAddress = l.MACAddress → l.Expires.After x.Expires = true) :
    leases.Merged (pre ++ [l]) (m.set (HardwareAddr.String l.MACAddress) l) := by
  have hlt : ∀ x ∈ pre, x.MACAddress = l.MACAddress → x.Expires.ext < l.Expires.ext := by
    intro x hx hmac
    simpa [Time.After] using hbeat x hx hmac
  refine ⟨GoMap.nodup_set _ _ _ h.nodup, ?_, ?_, ?_, ?_, ?_⟩
  · intro e he
    rcases (GoMap.mem_set _ _ _ _).mp he with rfl | ⟨hm, _⟩
    · rfl
    · exact h.key e hm
  · intro e he
    rcases (GoMap.mem_set _ _ _ _).mp he with rfl | ⟨hm, _⟩
    · simp
    · exact List.mem_append_left _ (h.mem e hm)
  · intro e he x hx hmac
    rcases (GoMap.mem_set _ _ _ _).mp he with rfl | ⟨hm, hk⟩
    · rcases List.mem_append.mp hx with hx | hx
      · have := hlt x hx hmac
        simp only [Time.After, gt_iff_lt, decide_eq_false_iff_not, not_lt]
        exact le_of_lt this
      · rw [List.mem_singleton.mp hx]
        exact Time.After_irrefl _
    · rcases List.mem_append.mp hx with hx | hx
      · exact h.latest e hm x hx hmac
      · rw [List.mem_singleton.mp hx] at hmac
        exact absurd (by rw [h.key e hm, hmac]) hk
  · intro e he
    rcases (GoMap.mem_set _ _ _ _).mp he with rfl | ⟨hm, _⟩
    · have hnone : pre.find?
          (fun x => decide (x.MACAddress = l.MACAddress ∧ x.Expires = l.Expires)) = none := by
        rw [List.find?_eq_none]
        intro x hx
        simp only [decide_eq_true_eq, not_and]
        intro hmac hexp
        have := hlt x hx hmac
        rw [hexp] at this
        exact lt_irrefl _ this
      rw [List.find?_append, hnone]
      simp
    · rw [List.find?_append, h.first e hm]
      rfl
  · intro x hx
    rcases List.mem_append.mp hx with hx | hx
    · obtain ⟨e, hm, hex⟩ := h.covers x hx
      by_cases hk : e.1 = HardwareAddr.String l.MACAddress
      · refine ⟨(HardwareAddr.String l.MACAddress, l), (GoMap.mem_set _ _ _ _).mpr (Or.inl rfl), ?_⟩
        rw [h.key e hm] at hk
        rw [← hex]
        exact (HardwareAddr.String_injective _ _ hk).symm
      · exact ⟨e, (GoMap.mem_set _ _ _ _).mpr (Or.inr ⟨hm, hk⟩), hex⟩
    · rw [List.mem_singleton.mp hx]
      exact ⟨(HardwareAddr.String l.MACAddress, l), (GoMap.mem_set _ _ _ _).mpr (Or.inl rfl), rfl⟩

theorem leases.Merged.keep {pre : List Lease} {m : GoMap Lease} (h : leases.Merged pre m)
    (l existing : Lease) (hex : (HardwareAddr.String l.MACAddress, existing) ∈ m)
    (hafter : l.Expires.After existing.Expires = false) :
    leases.Merged (pre ++ [l]) m := by
  have hmac : existing.MACAddress = l.MACAddress :=
    (HardwareAddr.String_injective _ _ (h.key _ hex)).symm
  refine ⟨h.nodup, h.key, fun e he => List.mem_append_left _ (h.mem e he), ?_, ?_, ?_⟩
  · intro e he x hx hxe
    rcases List.mem_append.mp hx with hx | hx
    · exact h.latest e he x hx hxe
    · rw [List.mem_singleton.mp hx] at hxe
      have : e = (HardwareAddr.String l.MACAddress, existing) :=
        h.unique he hex (by rw [← hxe, hmac])
      rw [List.mem_singleton.mp hx, this]
      exact hafter
  · intro e he
    rw [List.find?_append, h.first e he]
    rfl
  · intro x hx
    rcases List.mem_append.mp hx with hx | hx
    · exact h.covers x hx
    · rw [List.mem_singleton.mp hx]
      exact ⟨_, hex, hmac⟩

theorem leases.Merged.step {pre : List Lease} {m : GoMap Lease} (h : leases.Merged pre m)
    (l : Lease) : leases.Merged (pre ++ [l]) (leases.merge m l) := by
  unfold leases.merge
  cases hget : m.get? (HardwareAddr.String l.MACAddress) with
  | none =>
    apply h.insert l
    intro x hx hmac
    obtain ⟨e, he, hex⟩ := h.covers x hx
    exact absurd (by rw [h.key e he, hex, hmac]) (GoMap.not_mem_of_get? m _ hget e he)
  | some existing =>
    have hmem := GoMap.mem_of_get? m _ _ hget
    have hmac : existing.MACAddress = l.MACAddress :=
      (HardwareAddr.String_injective _ _ (h.key _ hmem)).symm
    by_cases hafter : l.Expires.After existing.Expires = true
    · simp only [hafter, if_true]
      apply h.insert l
      intro x hx hxl
      have h1 := h.latest _ hmem x hx (hxl.trans hmac.symm)
      simp only [Time.After, gt_iff_lt, decide_eq_false_iff_not, not_lt,
        decide_eq_true_eq] at h1 hafter ⊢
      exact lt_of_le_of_lt h1 hafter
    · simp only [hafter, if_false]
      exact h.keep l existing hmem (by simpa using hafter)

theorem leases.foldl_step (net : Net) (fieldMap : GoMap Nat) (lines : List String)
    (m : GoMap Lease) :
    lines.foldl (leases.step net fieldMap) m
      = (lines.filterMap (leases.parseLine net fieldMap)).foldl leases.merge m := by
  induction lines generalizing m with
  | nil => rfl
  | cons line rest ih =>
    rw [List.foldl_cons, ih]
    unfold leases.step
    cases hp : leases.parseLine net fieldMap line with
    | none => simp [List.filterMap_cons, hp]
    | some l => simp [List.filterMap_cons, hp]

theorem leases.Merged.foldl (recs : List Lease) :
    leases.Merged recs (recs.foldl leases.merge []) := by
  induction recs using List.reverseRecOn with
  | nil => exact leases.Merged.nil
  | append_singleton pre l ih =>
    rw [List.foldl_append]
    exact ih.step l

/-! ## Results of `leases` and `Leases` -/

theorem sortLeases_perm (res : List Lease) : (sortLeases res).Perm res :=
  List.perm_insertionSort _ res

theorem KeaLeaseFile.scan_valid_header (net : Net) (header : String) (rest : List String)
    (hhdr : ∀ f ∈ needFields,
      (headerFieldMap (stringsSplit header ',') 0 []).get? f ≠ none) :
    KeaLeaseFile.scan net (header :: rest)
      = .ok (sortLeases (((rest.filterMap
          (leases.parseLine net (headerFieldMap (stringsSplit header ',') 0 []))).foldl
            leases.merge []).map Prod.snd)) := by
  have hfind : needFields.find?
      (fun f => ((headerFieldMap (stringsSplit header ',') 0 []).get? f).isNone) = none := by
    rw [List.find?_eq_none]
    intro f hf
    have := hhdr f hf
    cases hg : (headerFieldMap (stringsSplit header ',') 0 []).get? f with
    | none => exact absurd hg this
    | some _ => simp
  simp only [KeaLeaseFile.scan, hfind, leases.foldl_step]

theorem leases.Merged.nodup_addresses {recs : List Lease} {m : GoMap Lease}
    (h : leases.Merged recs m) : ((m.map Prod.snd).map (fun l => l.MACAddress)).Nodup := by
  have hk : m.map Prod.fst
      = ((m.map Prod.snd).map (fun l => l.MACAddress)).map HardwareAddr.String := by
    rw [List.map_map, List.map_map]
    apply List.map_congr_left
    intro e he
    exact h.key e he
  have := h.nodup
  rw [hk] at this
  exact List.Nodup.of_map _ this

theorem KeaLeaseFile.scan_nodup (net : Net) (lines : List String) (r : List Lease)
    (h : KeaLeaseFile.scan net lines = .ok r) : (r.map (fun l => l.MACAddress)).Nodup := by
  cases lines with
  | nil =>
    simp only [KeaLeaseFile.scan, Except.ok.injEq] at h
    rw [← h]
    exact List.nodup_nil
  | cons header rest =>
    simp only [KeaLeaseFile.scan] at h
    split at h
    · cases h
    · simp only [Except.ok.injEq] at h
      rw [← h, leases.foldl_step]
      exact ((sortLeases_perm _).map _).nodup_iff.mpr
        (leases.Merged.foldl _).nodup_addresses

theorem KeaLeaseFile.leases_nodup (net : Net) (fs : FS) (path : String) (r : List Lease)
    (h : KeaLeaseFile.leases net fs path = .ok r) : (r.map (fun l => l.MACAddress)).Nodup := by
  unfold KeaLeaseFile.leases at h
  split at h
  · cases h
  · cases h
  · exact KeaLeaseFile.scan_nodup net _ r h

theorem KeaLeaseFile.Leases.loop_ok (net : Net) (fs : FS) (paths : List String)
    (acc res : List Lease) (h : KeaLeaseFile.Leases.loop net fs paths acc = .ok res) :
    res = acc ++ (paths.filterMap (fun p => (KeaLeaseFile.leases net fs p).toOption)).flatten := by
  induction paths generalizing acc with
  | nil =>
    simp only [KeaLeaseFile.Leases.loop, Except.ok.injEq] at h
    simp [h]
  | cons p rest ih =>
    unfold KeaLeaseFile.Leases.loop at h
    cases hl : KeaLeaseFile.leases net fs p with
    | error err =>
      rw [hl] at h
      by_cases hne : err.isNotExist = true
      · simp only [hne, Bool.not_true, Bool.false_eq_true, if_false] at h
        rw [ih acc h]
        simp [List.filterMap_cons, hl, Except.toOption]
      · simp only [hne, Bool.not_false, if_true] at h
        simp_all
    | ok ls =>
      rw [hl] at h
      rw [ih _ h]
      simp [List.filterMap_cons, hl, Except.toOption, List.append_assoc]

theorem KeaLeaseFile.Leases.loop_filter (net : Net) (fs : FS) (paths : List String)
    (acc : List Lease) :
    KeaLeaseFile.Leases.loop net fs paths acc
      = KeaLeaseFile.Leases.loop net fs (paths.filter (fun p => !fs.missing p)) acc := by
  induction paths generalizing acc with
  | nil => rfl
  | cons p rest ih =>
    cases hp : fs p with
    | notExist =>
      have hm : fs.missing p = true := by simp [FS.missing, hp]
      simp [List.filter_cons, hm, KeaLeaseFile.Leases.loop, KeaLeaseFile.leases, hp,
        LeaseErr.isNotExist, ih]
    | otherError =>
      have hm : fs.missing p = false := by simp [FS.missing, hp]
      simp [List.filter_cons, hm, KeaLeaseFile.Leases.loop, KeaLeaseFile.leases, hp,
        LeaseErr.isNotExist]
    | file lines =>
      have hm : fs.missing p = false := by simp [FS.missing, hp]
      simp only [List.filter_cons, hm, Bool.not_false, if_true, KeaLeaseFile.Leases.loop,
        KeaLeaseFile.leases, hp]
      cases KeaLeaseFile.scan net lines with
      | error err => simp only [ih]
      | ok ls => exact ih _

theorem wrapInt64_of_range (x : Int) (hlo : -(2 ^ 63) ≤ x) (hhi : x < 2 ^ 63) :
    wrapInt64 x = x := by
  unfold wrapInt64
  norm_num at hlo hhi ⊢
  omega

theorem timeUnix_After_iff (a b : Int)
    (ha : -(2 ^ 63) ≤ a + unixToInternal ∧ a + unixToInternal < 2 ^ 63)
    (hb : -(2 ^ 63) ≤ b + unixToInternal ∧ b + unixToInternal < 2 ^ 63) :
    (timeUnix a).After (timeUnix b) = true ↔ b < a := by
  simp only [Time.After, timeUnix, wrapInt64_of_range _ ha.1 ha.2,
    wrapInt64_of_range _ hb.1 hb.2, gt_iff_lt, decide_eq_true_eq]
  omega

theorem leases.step_invalid_address (net : Net) (fieldMap : GoMap Nat) (resMap : GoMap Lease)
    (line : String) (h : net.ParseIP (leases.field fieldMap line "address") = none) :
    leases.step net fieldMap resMap line = resMap := by
  simp [leases.step, leases.parseLine, h]

/-- C7, as stated, fails: the current and the rotated lease file both hold a
record for `00:01:02:03:04:05`, and `Leases` over the two returns two leases
for that address. -/
theorem Leases_two_files_same_address :
    KeaLeaseFile.Leases sampleNet sampleFS ⟨["dhcp4.leases", "dhcp4.leases.2"]⟩
      = .ok [⟨ip10 3, [0, 1, 2, 3, 4, 4], timeUnix 20, "z"⟩,
             ⟨ip10 2, [0, 1, 2, 3, 4, 5], timeUnix 20, "y"⟩,
             ⟨ip10 2, [0, 1, 2, 3, 4, 5], timeUnix 20, "y"⟩]
    ∧ ¬ ([(⟨ip10 3, [0, 1, 2, 3, 4, 4], timeUnix 20, "z"⟩ : Lease),
          ⟨ip10 2, [0, 1, 2, 3, 4, 5], timeUnix 20, "y"⟩,
          ⟨ip10 2, [0, 1, 2, 3, 4, 5], timeUnix 20, "y"⟩].map
            (fun l => l.MACAddress)).Nodup :=
  ⟨rfl, by decide⟩

/-- C7, amended: every successful per-file call `leases(path)` returns at most
one lease per hardware address, and a successful `Leases()` returns the
per-file results of the readable files one after the other in path order (no
merging across files). -/
theorem Leases_concatenates_files (net : Net) (fs : FS) (k : KeaLeaseFile) (res : List Lease)
    (h : KeaLeaseFile.Leases net fs k = .ok res) :
    res = (k.paths.filterMap (fun p => (KeaLeaseFile.leases net fs p).toOption)).flatten
    ∧ ∀ path r, KeaLeaseFile.leases net fs path = .ok r →
        (r.map (fun l => l.MACAddress)).Nodup := by
  constructor
  · simpa using KeaLeaseFile.Leases.loop_ok net fs k.paths [] res h
  · intro path r hr
    exact KeaLeaseFile.leases_nodup net fs path r hr

theorem Leases_concatenates_files_witness :
    KeaLeaseFile.Leases sampleNet sampleFS ⟨["dhcp4.leases", "gone", "dhcp4.leases.2"]⟩
      = .ok [⟨ip10 3, [0, 1, 2, 3, 4, 4], timeUnix 20, "z"⟩,
             ⟨ip10 2, [0, 1, 2, 3, 4, 5], timeUnix 20, "y"⟩,
             ⟨ip10 2, [0, 1, 2, 3, 4, 5], timeUnix 20, "y"⟩]
    ∧ [(⟨ip10 3, [0, 1, 2, 3, 4, 4], timeUnix 20, "z"⟩ : Lease),
        ⟨ip10 2, [0, 1, 2, 3, 4, 5], timeUnix 20, "y"⟩,
        ⟨ip10 2, [0, 1, 2, 3, 4, 5], timeUnix 20, "y"⟩]
      = ((["dhcp4.leases", "gone", "dhcp4.leases.2"] : List String).filterMap
          (fun p => (KeaLeaseFile.leases sampleNet sampleFS p).toOption)).flatten :=
  ⟨rfl,
    (Leases_concatenates_files sampleNet sampleFS ⟨["dhcp4.leases", "gone", "dhcp4.leases.2"]⟩
      _ rfl).1⟩

theorem KeaLeaseFile.leases_merged_records (net : Net) (fs : FS) (path header : String)
    (rest : List String) (fieldMap : GoMap Nat)
    (hfile : fs path = .file (header :: rest))
    (hfm : fieldMap = headerFieldMap (stringsSplit header ',') 0 [])
    (hhdr : ∀ f ∈ needFields, fieldMap.get? f ≠ none)
    (hwf : ∀ line ∈ rest, leases.wellFormed net fieldMap line) :
    ∃ res, KeaLeaseFile.leases net fs path = .ok res
      ∧ (∀ line ∈ rest, ∃ ip mac,
          net.ParseIP (leases.field fieldMap line "address") = some ip
          ∧ net.ParseMAC (leases.field fieldMap line "hwaddr") = some mac
          ∧ leases.parseLine net fieldMap line
              = some ⟨ip, mac, timeUnix (ParseInt (leases.field fieldMap line "expire")).1,
                  leases.field fieldMap line "hostname"⟩
          ∧ ∃ r ∈ res, r.MACAddress = mac ∧ ∀ r' ∈ res, r'.MACAddress = mac → r' = r)
      ∧ (∀ r ∈ res,
          r ∈ rest.filterMap (leases.parseLine net fieldMap)
          ∧ (∀ l ∈ rest.filterMap (leases.parseLine net fieldMap),
              l.MACAddress = r.MACAddress → l.Expires.After r.Expires = false)
          ∧ (rest.filterMap (leases.parseLine net fieldMap)).find?
              (fun l => decide (l.MACAddress = r.MACAddress ∧ l.Expires = r.Expires))
              = some r) := by
  subst hfm
  have hM := leases.Merged.foldl
    (rest.filterMap (leases.parseLine net (headerFieldMap (stringsSplit header ',') 0 [])))
  have hres : KeaLeaseFile.leases net fs path
      = .ok (sortLeases (((rest.filterMap
          (leases.parseLine net (headerFieldMap (stringsSplit header ',') 0 []))).foldl
            leases.merge []).map Prod.snd)) := by
    unfold KeaLeaseFile.leases
    rw [hfile]
    exact KeaLeaseFile.scan_valid_header net header rest hhdr
  have hmem : ∀ r, r ∈ sortLeases (((rest.filterMap
      (leases.parseLine net (headerFieldMap (stringsSplit header ',') 0 []))).foldl
        leases.merge []).map Prod.snd) ↔ ∃ e ∈ (rest.filterMap
      (leases.parseLine net (headerFieldMap (stringsSplit header ',') 0 []))).foldl
        leases.merge [], e.2 = r := by
    intro r
    rw [(sortLeases_perm _).mem_iff, List.mem_map]
  refine ⟨_, hres, ?_, ?_⟩
  · intro line hline
    obtain ⟨hip, hmac, _⟩ := hwf line hline
    obtain ⟨ip, hip⟩ := Option.isSome_iff_exists.mp hip
    obtain ⟨mac, hmac⟩ := Option.isSome_iff_exists.mp hmac
    have hparse : leases.parseLine net (headerFieldMap (stringsSplit header ',') 0 []) line
        = some ⟨ip, mac, timeUnix (ParseInt (leases.field
            (headerFieldMap (stringsSplit header ',') 0 []) line "expire")).1,
            leases.field (headerFieldMap (stringsSplit header ',') 0 []) line "hostname"⟩ := by
      simp [leases.parseLine, hip, hmac]
    refine ⟨ip, mac, hip, hmac, hparse, ?_⟩
    obtain ⟨e, he, hemac⟩ := hM.covers _
      (List.mem_filterMap.mpr ⟨line, hline, hparse⟩)
    refine ⟨e.2, (hmem _).mpr ⟨e, he, rfl⟩, hemac, ?_⟩
    intro r' hr' hr'mac
    obtain ⟨e', he', rfl⟩ := (hmem _).mp hr'
    rw [hM.unique he' he (hr'mac.trans hemac.symm)]
  · intro r hr
    obtain ⟨e, he, rfl⟩ := (hmem _).mp hr
    exact ⟨hM.mem e he, hM.latest e he, hM.first e he⟩

theorem wrapInt64_bounds (x : Int) : -(2 ^ 63) ≤ wrapInt64 x ∧ wrapInt64 x < 2 ^ 63 := by
  unfold wrapInt64
  norm_num
  omega

theorem parseIntSigned_bounds (neg : Bool) (r : Nat × Option NumError)
    (h : (parseIntSigned neg r).2 = none) :
    -(2 ^ 63) ≤ (parseIntSigned neg r).1 ∧ (parseIntSigned neg r).1 < 2 ^ 63 := by
  unfold parseIntSigned at h ⊢
  split_ifs at h ⊢ with h1 h2 h3 h4
  · exact wrapInt64_bounds _
  · have hneg : neg = false := by simpa using h4
    have hlt : r.1 < 2 ^ 63 := by simpa [hneg] using h2
    constructor
    · have : (0 : Int) ≤ (r.1 : Int) := Int.ofNat_nonneg _
      have h63 : (0 : Int) ≤ 2 ^ 63 := by norm_num
      show -(2 ^ 63 : Int) ≤ (r.1 : Int)
      omega
    · show (r.1 : Int) < 2 ^ 63
      exact_mod_cast hlt

theorem ParseInt_bounds (s : String) (h : (ParseInt s).2 = none) :
    -(2 ^ 63) ≤ (ParseInt s).1 ∧ (ParseInt s).1 < 2 ^ 63 := by
  unfold ParseInt at h ⊢
  split at h
  · cases h
  · split_ifs at h ⊢
    · exact parseIntSigned_bounds _ _ h
    · exact parseIntSigned_bounds _ _ h
    · exact parseIntSigned_bounds _ _ h

theorem timeUnix_ext_in_range (n : Int) (hlo : -(2 ^ 63) ≤ n)
    (hhi : n ≤ 9223371974719179007) : (timeUnix n).ext = n + unixToInternal := by
  unfold timeUnix
  simp only
  apply wrapInt64_of_range
  · unfold unixToInternal
    norm_num at hlo ⊢
    omega
  · unfold unixToInternal
    norm_num at hlo ⊢
    omega

theorem List.find?_filterMap_some {α β : Type} (f : α → Option β) (p : β → Bool)
    (l : List α) (r : β) (h : (l.filterMap f).find? p = some r) :
    ∃ x, l.find? (fun x => match f x with
        | some y => p y
        | none => false) = some x ∧ f x = some r := by
  induction l with
  | nil => simp at h
  | cons a t ih =>
    cases hfa : f a with
    | none =>
      rw [List.filterMap_cons, hfa] at h
      obtain ⟨x, hx, hfx⟩ := ih h
      refine ⟨x, ?_, hfx⟩
      rw [List.find?_cons]
      simp only [hfa]
      exact hx
    | some y =>
      rw [List.filterMap_cons, hfa, List.find?_cons] at h
      by_cases hp : p y = true
      · rw [hp] at h
        simp only [Option.some.injEq] at h
        subst h
        refine ⟨a, ?_, hfa⟩
        rw [List.find?_cons]
        simp only [hfa, hp]
      · have hp' : p y = false := by simpa using hp
        rw [hp'] at h
        obtain ⟨x, hx, hfx⟩ := ih h
        refine ⟨x, ?_, hfx⟩
        rw [List.find?_cons]
        simp only [hfa, hp']
        exact hx

theorem List.find?_congr_on {α : Type} (p q : α → Bool) (l : List α)
    (h : ∀ x ∈ l, p x = q x) : l.find? p = l.find? q := by
  induction l with
  | nil => rfl
  | cons a t ih =>
    rw [List.find?_cons, List.find?_cons, h a (List.mem_cons_self _ _),
      ih (fun x hx => h x (List.mem_cons_of_mem _ hx))]

theorem leases.parseLine_of_wellFormed (net : Net) (fieldMap : GoMap Nat) (line : String)
    (hwf : leases.wellFormed net fieldMap line) :
    ∃ ip mac, net.ParseIP (leases.field fieldMap line "address") = some ip
      ∧ net.ParseMAC (leases.field fieldMap line "hwaddr") = some mac
      ∧ leases.parseLine net fieldMap line
          = some ⟨ip, mac, timeUnix (ParseInt (leases.field fieldMap line "expire")).1,
              leases.field fieldMap line "hostname"⟩ := by
  obtain ⟨hip, hmac, _⟩ := hwf
  obtain ⟨ip, hip⟩ := Option.isSome_iff_exists.mp hip
  obtain ⟨mac, hmac⟩ := Option.isSome_iff_exists.mp hmac
  exact ⟨ip, mac, hip, hmac, by simp [leases.parseLine, hip, hmac]⟩

/-- C9, on the code: in `bad.leases` the second data line has a non-numeric
expire and the third an invalid hwaddr, and neither is skipped: the second
replaces the lease of the valid first line (with expiry `time.Unix(0, 0)`) and
the third adds a lease with the empty hardware address.  Only the fourth line,
whose address is invalid, leaves no trace. -/
theorem leases_keeps_malformed_lines :
    (ParseInt "soon").2 = some NumError.ErrSyntax
    ∧ sampleNet.ParseMAC "bogus" = none
    ∧ sampleNet.ParseIP "10.0.0" = none
    ∧ KeaLeaseFile.leases sampleNet sampleFS "bad.leases"
      = .ok [⟨ip10 3, [], timeUnix 100, "c"⟩,
             ⟨ip10 2, [0, 1, 2, 3, 4, 5], timeUnix 0, "b"⟩] :=
  ⟨rfl, rfl, rfl, rfl⟩

/-- C10: `Leases()` over a sequence of paths returns what it returns over the
sequence with the missing paths removed, error or leases alike; for a missing
path `leases` returns the open error that `errors.Is(err, os.ErrNotExist)`
recognises. -/
theorem Leases_ignores_missing_files (net : Net) (fs : FS) (k : KeaLeaseFile) :
    KeaLeaseFile.Leases net fs k
      = KeaLeaseFile.Leases net fs ⟨k.paths.filter (fun p => !fs.missing p)⟩
    ∧ ∀ p ∈ k.paths, fs.missing p = true →
        KeaLeaseFile.leases net fs p = .error (.couldNotOpen true)
        ∧ (LeaseErr.couldNotOpen true).isNotExist = true := by
  refine ⟨KeaLeaseFile.Leases.loop_filter net fs k.paths [], ?_⟩
  intro p _ hp
  unfold FS.missing at hp
  unfold KeaLeaseFile.leases
  split at hp
  · next h => simp [h, LeaseErr.isNotExist]
  · cases hp

theorem Leases_ignores_missing_files_witness :
    sampleFS.missing "gone" = true
    ∧ KeaLeaseFile.Leases sampleNet sampleFS ⟨["gone", "dhcp4.leases.2", "gone.2"]⟩
      = .ok [⟨ip10 2, [0, 1, 2, 3, 4, 5], timeUnix 20, "y"⟩]
    ∧ KeaLeaseFile.Leases sampleNet sampleFS ⟨["gone", "dhcp4.leases.2", "gone.2"]⟩
      = KeaLeaseFile.Leases sampleNet sampleFS
          ⟨["gone", "dhcp4.leases.2", "gone.2"].filter (fun p => !sampleFS.missing p)⟩ :=
  ⟨rfl, rfl,
    (Leases_ignores_missing_files sampleNet sampleFS ⟨["gone", "dhcp4.leases.2", "gone.2"]⟩).1⟩

/-! ## The repository's test on the model -/

/-- Every expectation of `TestBoltDB` (`database_test.go`) holds on the model,
with the line codec in the place of `encoding/json`. -/
theorem TestBoltDB_expectations :
    (ClaimDevice lineJSON ⟨Bucket.empty⟩ "jane" [0, 1, 2, 3, 4, 5] "stinkpad").err = none
    ∧ (ClaimDevice lineJSON
        (ClaimDevice lineJSON ⟨Bucket.empty⟩ "jane" [0, 1, 2, 3, 4, 5] "stinkpad").db
        "joe" [0, 1, 2, 3, 4, 6] "crapbook").err = none
    ∧ GetDevicesForMacAddresses lineJSON testDB
        [[0, 1, 2, 3, 4, 5], [0, 1, 2, 3, 4, 6], [0, 1, 2, 3, 4, 7]]
      = .ok [⟨"00:01:02:03:04:05", "stinkpad", "jane"⟩, ⟨"00:01:02:03:04:06", "crapbook", "joe"⟩]
    ∧ (ClaimDevice lineJSON testDB "joe" [0, 1, 2, 3, 4, 5] "crapbook").err ≠ none
    ∧ (ClaimDevice lineJSON testDB "joe" [0, 1, 2, 3, 4, 6] "crapbook2").err = none
    ∧ GetDevicesForMacAddresses lineJSON testDB2 [[0, 1, 2, 3, 4, 6], [0, 1, 2, 3, 4, 7]]
      = .ok [⟨"00:01:02:03:04:06", "crapbook2", "joe"⟩]
    ∧ (UnclaimDevice lineJSON testDB2 "jane" [0, 1, 2, 3, 4, 5]).err = none
    ∧ (UnclaimDevice lineJSON testDB3 "jane" [0, 1, 2, 3, 4, 6]).err ≠ none
    ∧ GetDevicesForMacAddresses lineJSON
        (UnclaimDevice lineJSON testDB3 "jane" [0, 1, 2, 3, 4, 6]).db
        [[0, 1, 2, 3, 4, 5], [0, 1, 2, 3, 4, 6], [0, 1, 2, 3, 4, 7]]
      = .ok [⟨"00:01:02:03:04:06", "crapbook2", "joe"⟩]
    ∧ GetDevicesForUser lineJSON testDB2 "joe" = .ok [⟨"00:01:02:03:04:06", "crapbook2", "joe"⟩] :=
  ⟨by decide, by decide, rfl, by decide, by decide, rfl, by decide, by decide, rfl, rfl⟩

/-! ## A header without a required column -/

theorem KeaLeaseFile.Leases.loop_fails (net : Net) (fs : FS) (paths : List String)
    (acc : List Lease) (path : String) (err : LeaseErr) (hmem : path ∈ paths)
    (herr : KeaLeaseFile.leases net fs path = .error err) (hkind : err.isNotExist = false) :
    ∃ e, KeaLeaseFile.Leases.loop net fs paths acc = .error e ∧ e.isNotExist = false := by
  induction paths generalizing acc with
  | nil => cases hmem
  | cons p rest ih =>
    unfold KeaLeaseFile.Leases.loop
    cases hp : KeaLeaseFile.leases net fs p with
    | error e =>
      by_cases hne : e.isNotExist = true
      · simp only [hne, Bool.not_true, Bool.false_eq_true, if_false]
        rcases List.mem_cons.mp hmem with rfl | hrest
        · rw [herr] at hp
          cases hp
          rw [hkind] at hne
          cases hne
        · exact ih acc hrest
      · simp only [hne, Bool.not_false, if_true]
        exact ⟨e, rfl, by simpa using hne⟩
    | ok ls =>
      rcases List.mem_cons.mp hmem with rfl | hrest
      · rw [herr] at hp
        cases hp
      · exact ih _ hrest

theorem KeaLeaseFile.scan_missing_column (net : Net) (header : String) (rest : List String)
    (hlack : ∃ f ∈ needFields, (headerFieldMap (stringsSplit header ',') 0 []).get? f = none) :
    ∃ f ∈ needFields, (headerFieldMap (stringsSplit header ',') 0 []).get? f = none
      ∧ KeaLeaseFile.scan net (header :: rest) = .error (.missingField f) := by
  obtain ⟨g, hg, hgnone⟩ := hlack
  cases hfind : needFields.find?
      (fun f => ((headerFieldMap (stringsSplit header ',') 0 []).get? f).isNone) with
  | none =>
    have := (List.find?_eq_none.mp hfind) g hg
    simp [hgnone] at this
  | some f =>
    refine ⟨f, List.mem_of_find?_eq_some hfind, ?_, ?_⟩
    · simpa using List.find?_some hfind
    · simp only [KeaLeaseFile.scan, hfind]

/-- C11, as stated, fails: `broken.leases` has a header without the column
`expire` and `dhcp4.leases.2` is a sound file with one lease, yet `Leases()`
over the two, in either order, returns the missing-field error and no
leases. -/
theorem Leases_aborts_on_bad_header :
    KeaLeaseFile.leases sampleNet brokenFS "dhcp4.leases.2"
      = .ok [⟨ip10 2, [0, 1, 2, 3, 4, 5], timeUnix 20, "y"⟩]
    ∧ KeaLeaseFile.leases sampleNet brokenFS "broken.leases"
      = .error (.missingField "expire")
    ∧ KeaLeaseFile.Leases sampleNet brokenFS ⟨["broken.leases", "dhcp4.leases.2"]⟩
      = .error (.missingField "expire")
    ∧ KeaLeaseFile.Leases sampleNet brokenFS ⟨["dhcp4.leases.2", "broken.leases"]⟩
      = .error (.missingField "expire") :=
  ⟨rfl, rfl, rfl, rfl⟩

/-- C11, amended: a lease file whose header line lacks any of the required
columns address, hwaddr, expire, hostname makes `leases` return the error
"leasefile missing field" for a required column the header lacks, which is not
a file-does-not-exist error; and `Leases()` over every sequence of paths that
contains this file returns an error of that kind and no leases. -/
theorem Leases_fails_on_missing_column (net : Net) (fs : FS) (path header : String)
    (rest : List String)
    (hfile : fs path = .file (header :: rest))
    (hlack : ∃ f ∈ needFields, (headerFieldMap (stringsSplit header ',') 0 []).get? f = none) :
    (∃ f ∈ needFields, (headerFieldMap (stringsSplit header ',') 0 []).get? f = none
      ∧ KeaLeaseFile.leases net fs path = .error (.missingField f)
      ∧ (LeaseErr.missingField f).isNotExist = false)
    ∧ ∀ k : KeaLeaseFile, path ∈ k.paths →
        ∃ e, KeaLeaseFile.Leases net fs k = .error e ∧ e.isNotExist = false := by
  obtain ⟨f, hf, hfnone, hscan⟩ := KeaLeaseFile.scan_missing_column net header rest hlack
  have hleases : KeaLeaseFile.leases net fs path = .error (.missingField f) := by
    unfold KeaLeaseFile.leases
    rw [hfile]
    exact hscan
  refine ⟨⟨f, hf, hfnone, hleases, rfl⟩, ?_⟩
  intro k hk
  exact KeaLeaseFile.Leases.loop_fails net fs k.paths [] path _ hk hleases rfl

theorem Leases_fails_on_missing_column_witness :
    (∃ f ∈ needFields,
      (headerFieldMap (stringsSplit "address,hwaddr,hostname" ',') 0 []).get? f = none)
    ∧ (∃ f ∈ needFields,
        (headerFieldMap (stringsSplit "address,hwaddr,hostname" ',') 0 []).get? f = none
        ∧ KeaLeaseFile.leases sampleNet brokenFS "broken.leases" = .error (.missingField f)
        ∧ (LeaseErr.missingField f).isNotExist = false)
    ∧ ∀ k : KeaLeaseFile, "broken.leases" ∈ k.paths →
        ∃ e, KeaLeaseFile.Leases sampleNet brokenFS k = .error e ∧ e.isNotExist = false :=
  ⟨⟨"expire", by decide, by decide⟩,
    Leases_fails_on_missing_column sampleNet brokenFS "broken.leases" "address,hwaddr,hostname"
      ["10.0.0.9,00:01:02:03:04:09,q"] rfl ⟨"expire", by decide, by decide⟩⟩

/-! ## The session cookie -/

theorem Nonce.ext_bytes {a b : Nonce} (h : a.bytes = b.bytes) : a = b := by
  cases a; cases b; cases h; rfl

theorem Sessions.Get.loop_skip (lib : SessionLib) (secretKey : Bytes) (pre rest : List Cookie)
    (hpre : ∀ c ∈ pre, c.Name ≠ "session2") :
    Sessions.Get.loop lib secretKey (pre ++ rest) = Sessions.Get.loop lib secretKey rest := by
  induction pre with
  | nil => rfl
  | cons c cs ih =>
    have hc : c.Name ≠ "session2" := hpre c (List.mem_cons_self _ _)
    rw [List.cons_append, Sessions.Get.loop]
    simp only [hc, ne_eq, not_false_eq_true, if_true]
    exact ih (fun x hx => hpre x (List.mem_cons_of_mem _ hx))

theorem Sessions.Get.loop_opens (lib : SessionLib) (secretKey : Bytes) (cookie : Cookie)
    (rest : List Cookie) (nonce : Nonce) (box decrypted : Bytes) (res : Session)
    (hname : cookie.Name = "session2")
    (hdec : lib.DecodeString cookie.Value = some (nonce.bytes ++ box))
    (hopen : lib.Open box nonce secretKey = some decrypted)
    (hjson : lib.Unmarshal decrypted = some res) :
    Sessions.Get.loop lib secretKey (cookie :: rest) = some res := by
  have hlen : ¬ (nonce.bytes ++ box).length < 24 := by
    rw [List.length_append, nonce.size]
    omega
  have htake : (nonce.bytes ++ box).take 24 = nonce.bytes := by
    rw [← nonce.size, List.take_left]
  have hdrop : (nonce.bytes ++ box).drop 24 = box := by
    rw [← nonce.size, List.drop_left]
  have hnonce : ∀ pf, (⟨(nonce.bytes ++ box).take 24, pf⟩ : Nonce) = nonce :=
    fun _ => Nonce.ext_bytes htake
  rw [Sessions.Get.loop]
  simp only [hname, ne_eq, not_true_eq_false, if_false, hdec, dif_neg hlen, hnonce, hdrop,
    hopen, hjson]

theorem Sessions.Get.loop_short (lib : SessionLib) (secretKey : Bytes) (cookies : List Cookie)
    (hshort : ∀ c ∈ cookies, c.Name = "session2" →
      ∃ b, lib.DecodeString c.Value = some b ∧ b.length < 24) :
    Sessions.Get.loop lib secretKey cookies = none := by
  induction cookies with
  | nil => rfl
  | cons c cs ih =>
    have ih' := ih (fun x hx => hshort x (List.mem_cons_of_mem _ hx))
    rw [Sessions.Get.loop]
    by_cases hname : c.Name = "session2"
    · obtain ⟨b, hb, hlen⟩ := hshort c (List.mem_cons_self _ _) hname
      simp only [hname, ne_eq, not_true_eq_false, if_false, hb, dif_pos hlen]
      exact ih'
    · simp only [hname, ne_eq, not_false_eq_true, if_true]
      exact ih'

/-- C12: where the libraries undo their own work on this payload (secretbox
opens the box it sealed under the same key and nonce, base64 decodes what it
encoded, JSON reads back the session it wrote), `Sessions.Set` with a secret,
a session and a nonce sets a cookie `session2` whose value is the encoding of
the nonce followed by the box, and `Sessions.Get` with the same secret on a
request that carries this cookie (after cookies of other names) returns that
session; and on a request whose `session2` cookies all decode to fewer than 24
bytes `Sessions.Get` returns `nil`. -/
theorem Sessions_Get_opens_Set (lib : SessionLib) (s : Sessions) (publicAddress : String)
    (nonce : Nonce) (data : Session) (pre post : List Cookie)
    (hbox : lib.Open (lib.Seal (lib.Marshal data) nonce (s.key lib)) nonce (s.key lib)
      = some (lib.Marshal data))
    (hb64 : lib.DecodeString
        (lib.EncodeToString (nonce.bytes ++ lib.Seal (lib.Marshal data) nonce (s.key lib)))
      = some (nonce.bytes ++ lib.Seal (lib.Marshal data) nonce (s.key lib)))
    (hjson : lib.Unmarshal (lib.Marshal data) = some data)
    (hpre : ∀ c ∈ pre, c.Name ≠ "session2") :
    (∃ cookie, s.Set lib publicAddress (some nonce) data = some cookie
      ∧ cookie.Name = "session2"
      ∧ cookie.Value
          = lib.EncodeToString (nonce.bytes ++ lib.Seal (lib.Marshal data) nonce (s.key lib))
      ∧ s.Get lib (pre ++ cookie :: post) = some data)
    ∧ ∀ cookies : List Cookie,
        (∀ c ∈ cookies, c.Name = "session2" →
          ∃ b, lib.DecodeString c.Value = some b ∧ b.length < 24) →
        s.Get lib cookies = none := by
  constructor
  · refine ⟨_, rfl, rfl, rfl, ?_⟩
    unfold Sessions.Get
    rw [Sessions.Get.loop_skip lib _ pre _ hpre]
    exact Sessions.Get.loop_opens lib _ _ post nonce _ _ data rfl hb64 hbox hjson
  · intro cookies hshort
    exact Sessions.Get.loop_short lib _ cookies hshort

theorem Sessions_Get_opens_Set_witness :
    (∃ cookie, Sessions.Set sampleLib ⟨"hunter2"⟩ "https://at.lab.fa-fo.de/"
        (some sampleNonce) ⟨"alice", "st", "ver"⟩ = some cookie
      ∧ cookie.Name = "session2"
      ∧ cookie.Value
          = sampleLib.EncodeToString (sampleNonce.bytes ++ sampleLib.Seal
              (sampleLib.Marshal ⟨"alice", "st", "ver"⟩) sampleNonce
              (Sessions.key sampleLib ⟨"hunter2"⟩))
      ∧ Sessions.Get sampleLib ⟨"hunter2"⟩ ([⟨"lang", "en", false, false, ""⟩] ++ cookie :: [])
          = some ⟨"alice", "st", "ver"⟩)
    ∧ (∀ cookies : List Cookie,
        (∀ c ∈ cookies, c.Name = "session2" →
          ∃ b, sampleLib.DecodeString c.Value = some b ∧ b.length < 24) →
        Sessions.Get sampleLib ⟨"hunter2"⟩ cookies = none)
    ∧ Sessions.Get sampleLib ⟨"hunter2"⟩ [⟨"session2", "0102", false, false, ""⟩] = none :=
  ⟨(Sessions_Get_opens_Set sampleLib ⟨"hunter2"⟩ "https://at.lab.fa-fo.de/" sampleNonce
      ⟨"alice", "st", "ver"⟩ [⟨"lang", "en", false, false, ""⟩] [] rfl rfl rfl
      (by decide)).1,
    (Sessions_Get_opens_Set sampleLib ⟨"hunter2"⟩ "https://at.lab.fa-fo.de/" sampleNonce
      ⟨"alice", "st", "ver"⟩ [⟨"lang", "en", false, false, ""⟩] [] rfl rfl rfl
      (by decide)).2,
    rfl⟩

/-! ## Active users -/

theorem getActiveUsers.collect_constant (clock : Nat → Instant) (now : Instant)
    (hclock : ∀ i, clock i = now) (leases : List Lease) (i : Nat) (addrs : List HardwareAddr) :
    getActiveUsers.collect clock leases i addrs
      = addrs ++ (leases.filter (fun l => !l.Expires.Before now)).map (fun l => l.MACAddress) := by
  induction leases generalizing i addrs with
  | nil => simp [getActiveUsers.collect]
  | cons l rest ih =>
    unfold getActiveUsers.collect
    rw [hclock i]
    by_cases hb : l.Expires.Before now = true
    · simp [hb, ih]
    · simp [hb, ih]

theorem getActiveUsers.userSet_keys (devices : List Device) (m : GoMap Bool)
    (hm : (m.map Prod.fst).Nodup) :
    ((getActiveUsers.userSet devices m).map Prod.fst).Nodup
    ∧ ∀ name, name ∈ (getActiveUsers.userSet devices m).map Prod.fst
        ↔ name ∈ m.map Prod.fst ∨ ∃ d ∈ devices, d.UserNickname = name := by
  induction devices generalizing m with
  | nil => simp [getActiveUsers.userSet, hm]
  | cons d rest ih =>
    unfold getActiveUsers.userSet
    obtain ⟨h1, h2⟩ := ih (m.set d.UserNickname true) (GoMap.nodup_set _ _ _ hm)
    refine ⟨h1, ?_⟩
    intro name
    rw [h2 name]
    have hset : name ∈ (m.set d.UserNickname true).map Prod.fst
        ↔ name = d.UserNickname ∨ name ∈ m.map Prod.fst := by
      simp only [List.mem_map, GoMap.mem_set, Prod.exists]
      constructor
      · rintro ⟨a, b, hab | ⟨hmem, _⟩, rfl⟩
        · left
          exact congrArg Prod.fst hab
        · right
          exact ⟨a, b, hmem, rfl⟩
      · rintro (rfl | ⟨a, b, hmem, rfl⟩)
        · exact ⟨_, true, Or.inl rfl, rfl⟩
        · by_cases hk : a = d.UserNickname
          · exact ⟨_, true, Or.inl rfl, hk.symm⟩
          · exact ⟨a, b, Or.inr ⟨hmem, hk⟩, rfl⟩
    rw [hset]
    simp only [List.mem_cons, exists_eq_or_imp]
    constructor
    · rintro ((rfl | h) | h)
      · exact Or.inr (Or.inl rfl)
      · exact Or.inl h
      · exact Or.inr (Or.inr h)
    · rintro (h | h | h)
      · exact Or.inl (Or.inr h)
      · exact Or.inl (Or.inl h.symm)
      · exact Or.inr h

theorem sortStrings_perm (l : List String) : (sortStrings l).Perm l :=
  List.perm_insertionSort _ l

theorem sortStrings_strict (l : List String) (h : l.Nodup) :
    (sortStrings l).Sorted (fun a b => strLess a b) := by
  haveI : IsTotal String (fun a b => strLessEq a b) := ⟨fun a b => le_total a.data b.data⟩
  haveI : IsTrans String (fun a b => strLessEq a b) := ⟨fun _ _ _ h1 h2 => le_trans h1 h2⟩
  have hs : (sortStrings l).Sorted (fun a b => strLessEq a b) := List.sorted_insertionSort _ l
  have hn : (sortStrings l).Nodup := (sortStrings_perm l).nodup_iff.mpr h
  exact (List.Pairwise.and hs hn).imp
    (fun hab => lt_of_le_of_ne hab.1 (fun hd => hab.2 (String.ext hd)))

theorem List.eq_singleton_of_nodup_of_mem_iff {α : Type} (l : List α) (a : α) (h : l.Nodup)
    (hm : ∀ x, x ∈ l ↔ x = a) : l = [a] := by
  cases l with
  | nil => exact absurd ((hm a).mpr rfl) (List.not_mem_nil a)
  | cons x t =>
    have hx : x = a := (hm x).mp (List.mem_cons_self _ _)
    subst hx
    cases t with
    | nil => rfl
    | cons y t' =>
      have hy : y = x := (hm y).mp (List.mem_cons_of_mem _ (List.mem_cons_self _ _))
      subst hy
      rw [List.nodup_cons] at h
      exact absurd (List.mem_cons_self _ _) h.1

/-- C13: when `Leases()` returns the lease list `leases` and every reading of
the clock gives the same time `now`, `getActiveUsers` returns `nil` as error
and a list of names that is strictly ascending (sorted, no duplicates); a name
is in it exactly when some lease that is not before `now` has a hardware
address under whose string form the bucket holds a record decoding to a device
of that name; in particular, when every lease is for the address `a` or the
address `b`, some lease for `a` is not before `now`, the record of `a` decodes
to a device of `alice` and `b` has no record, the list is `[alice]`. -/
theorem getActiveUsers_sorted_owners (net : Net) (fs : FS) (json : JSON)
    (clock : Nat → Instant) (s : Service) (db : BoltDatabase) (now : Instant)
    (leases : List Lease)
    (hleases : KeaLeaseFile.Leases net fs s.Leases = .ok leases)
    (hclock : ∀ i, clock i = now) :
    ∃ users, Service.getActiveUsers net fs json clock s db = .ok users
      ∧ users.Sorted (fun x y => strLess x y)
      ∧ users.Nodup
      ∧ (∀ name, name ∈ users ↔ ∃ lease ∈ leases, lease.Expires.Before now = false
          ∧ ∃ v d, db.devices.Get (HardwareAddr.String lease.MACAddress) = some v
            ∧ json.Unmarshal v = some d ∧ d.UserNickname = name)
      ∧ (∀ (a b : HardwareAddr) (alice va : String) (da : Device),
          (∀ lease ∈ leases, lease.MACAddress = a ∨ lease.MACAddress = b) →
          (∃ lease ∈ leases, lease.MACAddress = a ∧ lease.Expires.Before now = false) →
          db.devices.Get (HardwareAddr.String a) = some va →
          json.Unmarshal va = some da → da.UserNickname = alice →
          db.devices.Get (HardwareAddr.String b) = none →
          users = [alice]) := by
  have hkeys := getActiveUsers.userSet_keys
    (sortByMACAddress (GetDevicesForMacAddresses.loop json db.devices
      (getActiveUsers.collect clock leases 0 []) [])) [] List.nodup_nil
  have hres : Service.getActiveUsers net fs json clock s db
      = .ok (sortStrings ((getActiveUsers.userSet
          (sortByMACAddress (GetDevicesForMacAddresses.loop json db.devices
            (getActiveUsers.collect clock leases 0 []) [])) []).map Prod.fst)) := by
    simp only [Service.getActiveUsers, hleases, GetDevicesForMacAddresses]
  have hnodup : (sortStrings ((getActiveUsers.userSet
      (sortByMACAddress (GetDevicesForMacAddresses.loop json db.devices
        (getActiveUsers.collect clock leases 0 []) [])) []).map Prod.fst)).Nodup :=
    (sortStrings_perm _).nodup_iff.mpr hkeys.1
  have hmem : ∀ name, name ∈ sortStrings ((getActiveUsers.userSet
      (sortByMACAddress (GetDevicesForMacAddresses.loop json db.devices
        (getActiveUsers.collect clock leases 0 []) [])) []).map Prod.fst)
      ↔ ∃ lease ∈ leases, lease.Expires.Before now = false
          ∧ ∃ v d, db.devices.Get (HardwareAddr.String lease.MACAddress) = some v
            ∧ json.Unmarshal v = some d ∧ d.UserNickname = name := by
    intro name
    rw [(sortStrings_perm _).mem_iff, hkeys.2 name]
    simp only [List.map_nil, List.not_mem_nil, false_or]
    constructor
    · rintro ⟨d, hd, hname⟩
      rw [(sortByMACAddress_perm _).mem_iff, GetDevicesForMacAddresses.loop_lookup,
        getActiveUsers.collect_constant clock now hclock] at hd
      simp only [List.nil_append, List.mem_filterMap, List.mem_map, List.mem_filter,
        Option.bind_eq_some] at hd
      obtain ⟨m, ⟨lease, ⟨hl, hb⟩, rfl⟩, v, hget, hdec⟩ := hd
      exact ⟨lease, hl, by simpa using hb, v, d, hget, hdec, hname⟩
    · rintro ⟨lease, hl, hb, v, d, hget, hdec, hname⟩
      refine ⟨d, ?_, hname⟩
      rw [(sortByMACAddress_perm _).mem_iff, GetDevicesForMacAddresses.loop_lookup,
        getActiveUsers.collect_constant clock now hclock]
      simp only [List.nil_append, List.mem_filterMap, List.mem_map, List.mem_filter,
        Option.bind_eq_some]
      exact ⟨lease.MACAddress, ⟨lease, ⟨hl, by simpa using hb⟩, rfl⟩, v, hget, hdec⟩
  refine ⟨_, hres, sortStrings_strict _ hkeys.1, hnodup, hmem, ?_⟩
  intro a b alice va da hall hex hga hda hna hgb
  apply List.eq_singleton_of_nodup_of_mem_iff _ _ hnodup
  intro name
  rw [hmem name]
  constructor
  · rintro ⟨lease, hl, _, v, d, hget, hdec, hname⟩
    rcases hall lease hl with hm | hm
    · rw [hm, hga] at hget
      cases hget
      rw [hda] at hdec
      cases hdec
      rw [← hname, hna]
    · rw [hm, hgb] at hget
      cases hget
  · rintro rfl
    obtain ⟨lease, hl, hm, hb⟩ := hex
    exact ⟨lease, hl, hb, va, da, by rw [hm]; exact hga, hda, hna⟩

theorem getActiveUsers_sorted_owners_witness :
    KeaLeaseFile.Leases sampleNet sampleFS ⟨["dhcp4.leases"]⟩
      = .ok [⟨ip10 3, [0, 1, 2, 3, 4, 4], timeUnix 20, "z"⟩,
             ⟨ip10 2, [0, 1, 2, 3, 4, 5], timeUnix 20, "y"⟩]
    ∧ Service.getActiveUsers sampleNet sampleFS lineJSON sampleClock
        ⟨⟨["dhcp4.leases"]⟩⟩ aliceDB = .ok ["alice"]
    ∧ ∃ users, Service.getActiveUsers sampleNet sampleFS lineJSON sampleClock
        ⟨⟨["dhcp4.leases"]⟩⟩ aliceDB = .ok users
      ∧ users.Sorted (fun x y => strLess x y)
      ∧ users.Nodup
      ∧ (∀ name, name ∈ users ↔
          ∃ lease ∈ [(⟨ip10 3, [0, 1, 2, 3, 4, 4], timeUnix 20, "z"⟩ : Lease),
              ⟨ip10 2, [0, 1, 2, 3, 4, 5], timeUnix 20, "y"⟩],
            lease.Expires.Before ⟨62135596815, 0⟩ = false
            ∧ ∃ v d, aliceDB.devices.Get (HardwareAddr.String lease.MACAddress) = some v
              ∧ lineJSON.Unmarshal v = some d ∧ d.UserNickname = name)
      ∧ (∀ (a b : HardwareAddr) (alice va : String) (da : Device),
          (∀ lease ∈ [(⟨ip10 3, [0, 1, 2, 3, 4, 4], timeUnix 20, "z"⟩ : Lease),
              ⟨ip10 2, [0, 1, 2, 3, 4, 5], timeUnix 20, "y"⟩],
            lease.MACAddress = a ∨ lease.MACAddress = b) →
          (∃ lease ∈ [(⟨ip10 3, [0, 1, 2, 3, 4, 4], timeUnix 20, "z"⟩ : Lease),
              ⟨ip10 2, [0, 1, 2, 3, 4, 5], timeUnix 20, "y"⟩],
            lease.MACAddress = a ∧ lease.Expires.Before ⟨62135596815, 0⟩ = false) →
          aliceDB.devices.Get (HardwareAddr.String a) = some va →
          lineJSON.Unmarshal va = some da → da.UserNickname = alice →
          aliceDB.devices.Get (HardwareAddr.String b) = none →
          users = [alice]) :=
  ⟨rfl, rfl,
    getActiveUsers_sorted_owners sampleNet sampleFS lineJSON sampleClock
      ⟨⟨["dhcp4.leases"]⟩⟩ aliceDB ⟨62135596815, 0⟩ _ rfl (fun _ => rfl)⟩

/-! ## The retained lease of an address -/

theorem List.filter_eq_singleton_of_nodup_map {α β : Type} [DecidableEq β] (f : α → β)
    (l : List α) (r : α) (h : (l.map f).Nodup) (hr : r ∈ l) :
    l.filter (fun x => decide (f x = f r)) = [r] := by
  induction l with
  | nil => cases hr
  | cons a t ih =>
    rw [List.map_cons, List.nodup_cons] at h
    rcases List.mem_cons.mp hr with rfl | ht
    · have hnone : t.filter (fun x => decide (f x = f r)) = [] := by
        rw [List.filter_eq_nil_iff]
        intro x hx
        simp only [decide_eq_true_eq]
        intro hfx
        exact h.1 (hfx ▸ List.mem_map_of_mem f hx)
      rw [List.filter_cons]
      simp [hnone]
    · have hne : f a ≠ f r := fun hfa => h.1 (hfa ▸ List.mem_map_of_mem f ht)
      rw [List.filter_cons]
      simp only [hne, decide_False, Bool.false_eq_true, if_false]
      exact ih h.2 ht

/-- C8, as stated, fails: in `far.leases` both data lines are well-formed and
have the same hardware address, the second has the larger expire value
(9223372036854775807 against 10), and `leases` keeps the first: the seconds
counter of `time.Unix(9223372036854775807, 0)` wraps around to a negative
number, so that lease does not expire `After` the other. -/
theorem leases_keeps_smaller_expire_on_wrap :
    (∀ line ∈ ["10.0.0.1,00:01:02:03:04:05,10,x",
          "10.0.0.2,00:01:02:03:04:05,9223372036854775807,y"],
        leases.wellFormed sampleNet
          (headerFieldMap (stringsSplit "address,hwaddr,expire,hostname" ',') 0 []) line)
    ∧ ParseInt "10" = (10, none)
    ∧ ParseInt "9223372036854775807" = (9223372036854775807, none)
    ∧ (timeUnix 9223372036854775807).After (timeUnix 10) = false
    ∧ KeaLeaseFile.leases sampleNet farFS "far.leases"
      = .ok [⟨ip10 1, [0, 1, 2, 3, 4, 5], timeUnix 10, "x"⟩] :=
  ⟨by
      intro line hline
      simp only [List.mem_cons, List.mem_singleton, List.not_mem_nil, or_false] at hline
      rcases hline with rfl | rfl <;> exact ⟨rfl, rfl, rfl⟩,
    rfl, rfl, rfl, rfl⟩

/-- C8, amended: for a lease file whose header has the four required columns
and whose data lines are all well-formed with expire values of at most
9223371974719179007 (so that `time.Unix` does not wrap), `leases` succeeds and
its result has no two leases with the same hardware address; for every data
line the result holds exactly one lease with that line's hardware address;
and every lease of the result is the record of a data line whose expire value
is the largest among the lines of that address and which is the first line in
file order with that address and that expire value. -/
theorem leases_keeps_largest_expire_in_range (net : Net) (fs : FS) (path header : String)
    (rest : List String) (fieldMap : GoMap Nat)
    (hfile : fs path = .file (header :: rest))
    (hfm : fieldMap = headerFieldMap (stringsSplit header ',') 0 [])
    (hhdr : ∀ f ∈ needFields, fieldMap.get? f ≠ none)
    (hwf : ∀ line ∈ rest, leases.wellFormed net fieldMap line)
    (hrange : ∀ line ∈ rest,
      (ParseInt (leases.field fieldMap line "expire")).1 ≤ 9223371974719179007) :
    ∃ res, KeaLeaseFile.leases net fs path = .ok res
      ∧ (res.map (fun l => l.MACAddress)).Nodup
      ∧ (∀ line ∈ rest, ∃ ip mac,
          net.ParseIP (leases.field fieldMap line "address") = some ip
          ∧ net.ParseMAC (leases.field fieldMap line "hwaddr") = some mac
          ∧ leases.parseLine net fieldMap line
              = some ⟨ip, mac, timeUnix (ParseInt (leases.field fieldMap line "expire")).1,
                  leases.field fieldMap line "hostname"⟩
          ∧ (res.filter (fun l => decide (l.MACAddress = mac))).length = 1
          ∧ ∃ r ∈ res, r.MACAddress = mac ∧ ∀ r' ∈ res, r'.MACAddress = mac → r' = r)
      ∧ (∀ r ∈ res, ∃ line ∈ rest,
          leases.parseLine net fieldMap line = some r
          ∧ net.ParseMAC (leases.field fieldMap line "hwaddr") = some r.MACAddress
          ∧ r.Expires = timeUnix (ParseInt (leases.field fieldMap line "expire")).1
          ∧ (∀ line' ∈ rest,
              net.ParseMAC (leases.field fieldMap line' "hwaddr") = some r.MACAddress →
              (ParseInt (leases.field fieldMap line' "expire")).1
                ≤ (ParseInt (leases.field fieldMap line "expire")).1)
          ∧ rest.find? (fun line' => decide
              (net.ParseMAC (leases.field fieldMap line' "hwaddr") = some r.MACAddress
                ∧ (ParseInt (leases.field fieldMap line' "expire")).1
                  = (ParseInt (leases.field fieldMap line "expire")).1)) = some line) := by
  obtain ⟨res, hres, hA, hB⟩ :=
    KeaLeaseFile.leases_merged_records net fs path header rest fieldMap hfile hfm hhdr hwf
  have hnodup := KeaLeaseFile.leases_nodup net fs path res hres
  have hext : ∀ line ∈ rest,
      (timeUnix (ParseInt (leases.field fieldMap line "expire")).1).ext
        = (ParseInt (leases.field fieldMap line "expire")).1 + unixToInternal := by
    intro line hline
    exact timeUnix_ext_in_range _ (ParseInt_bounds _ (hwf line hline).2.2).1 (hrange line hline)
  refine ⟨res, hres, hnodup, ?_, ?_⟩
  · intro line hline
    obtain ⟨ip, mac, hip, hmac, hparse, r, hr, hrmac, huniq⟩ := hA line hline
    have hone : (res.filter (fun l => decide (l.MACAddress = mac))).length = 1 := by
      rw [← hrmac, List.filter_eq_singleton_of_nodup_map (fun l => l.MACAddress) res r hnodup hr]
      rfl
    exact ⟨ip, mac, hip, hmac, hparse, hone, r, hr, hrmac, huniq⟩
  · intro r hr
    obtain ⟨_, hlatest, hfirst⟩ := hB r hr
    obtain ⟨line, hfind, hparse⟩ := List.find?_filterMap_some _ _ _ _ hfirst
    have hline : line ∈ rest := List.mem_of_find?_eq_some hfind
    obtain ⟨ip, mac, _, hmac, hp⟩ := leases.parseLine_of_wellFormed net fieldMap line
      (hwf line hline)
    have hreq : r = ⟨ip, mac, timeUnix (ParseInt (leases.field fieldMap line "expire")).1,
        leases.field fieldMap line "hostname"⟩ := Option.some.inj (hparse.symm.trans hp)
    have hrmac : r.MACAddress = mac := by rw [hreq]
    have hrexp : r.Expires = timeUnix (ParseInt (leases.field fieldMap line "expire")).1 := by
      rw [hreq]
    refine ⟨line, hline, hparse, by rw [hrmac]; exact hmac, hrexp, ?_, ?_⟩
    · intro line' hline' hmac'
      obtain ⟨ip', mac', _, hm', hp'⟩ := leases.parseLine_of_wellFormed net fieldMap line'
        (hwf line' hline')
      have hmm : mac' = r.MACAddress := Option.some.inj (hm'.symm.trans hmac')
      have hafter := hlatest _ (List.mem_filterMap.mpr ⟨line', hline', hp'⟩) hmm
      rw [hrexp] at hafter
      simp only [Time.After, gt_iff_lt, decide_eq_false_iff_not, not_lt] at hafter
      rw [hext line' hline', hext line hline] at hafter
      omega
    · rw [← hfind]
      apply List.find?_congr_on
      intro x hx
      obtain ⟨ipx, macx, _, hmx, hpx⟩ := leases.parseLine_of_wellFormed net fieldMap x
        (hwf x hx)
      simp only [hpx, hmx, hrexp]
      rw [decide_eq_decide]
      constructor
      · rintro ⟨h1, h2⟩
        refine ⟨Option.some.inj h1, ?_⟩
        rw [h2]
      · rintro ⟨h1, h2⟩
        refine ⟨by rw [h1], ?_⟩
        have := congrArg Time.ext h2
        rw [hext x hx, hext line hline] at this
        omega

theorem leases_keeps_largest_expire_in_range_witness :
    KeaLeaseFile.leases sampleNet sampleFS "dhcp4.leases"
      = .ok [⟨ip10 3, [0, 1, 2, 3, 4, 4], timeUnix 20, "z"⟩,
             ⟨ip10 2, [0, 1, 2, 3, 4, 5], timeUnix 20, "y"⟩]
    ∧ (∀ line ∈ dhcpLines,
        leases.wellFormed sampleNet (headerFieldMap (stringsSplit dhcpHeader ',') 0 []) line
        ∧ (ParseInt (leases.field (headerFieldMap (stringsSplit dhcpHeader ',') 0 [])
            line "expire")).1 ≤ 9223371974719179007)
    ∧ ∃ res, KeaLeaseFile.leases sampleNet sampleFS "dhcp4.leases" = .ok res
      ∧ (res.map (fun l => l.MACAddress)).Nodup
      ∧ (∀ line ∈ dhcpLines, ∃ ip mac,
          sampleNet.ParseIP (leases.field
            (headerFieldMap (stringsSplit dhcpHeader ',') 0 []) line "address") = some ip
          ∧ sampleNet.ParseMAC (leases.field
            (headerFieldMap (stringsSplit dhcpHeader ',') 0 []) line "hwaddr") = some mac
          ∧ leases.parseLine sampleNet (headerFieldMap (stringsSplit dhcpHeader ',') 0 []) line
              = some ⟨ip, mac, timeUnix (ParseInt (leases.field
                  (headerFieldMap (stringsSplit dhcpHeader ',') 0 []) line "expire")).1,
                  leases.field (headerFieldMap (stringsSplit dhcpHeader ',') 0 [])
                    line "hostname"⟩
          ∧ (res.filter (fun l => decide (l.MACAddress = mac))).length = 1
          ∧ ∃ r ∈ res, r.MACAddress = mac ∧ ∀ r' ∈ res, r'.MACAddress = mac → r' = r)
      ∧ (∀ r ∈ res, ∃ line ∈ dhcpLines,
          leases.parseLine sampleNet (headerFieldMap (stringsSplit dhcpHeader ',') 0 []) line
            = some r
          ∧ sampleNet.ParseMAC (leases.field
              (headerFieldMap (stringsSplit dhcpHeader ',') 0 []) line "hwaddr")
              = some r.MACAddress
          ∧ r.Expires = timeUnix (ParseInt (leases.field
              (headerFieldMap (stringsSplit dhcpHeader ',') 0 []) line "expire")).1
          ∧ (∀ line' ∈ dhcpLines,
              sampleNet.ParseMAC (leases.field
                (headerFieldMap (stringsSplit dhcpHeader ',') 0 []) line' "hwaddr")
                = some r.MACAddress →
              (ParseInt (leases.field
                (headerFieldMap (stringsSplit dhcpHeader ',') 0 []) line' "expire")).1
                ≤ (ParseInt (leases.field
                  (headerFieldMap (stringsSplit dhcpHeader ',') 0 []) line "expire")).1)
          ∧ dhcpLines.find? (fun line' => decide
              (sampleNet.ParseMAC (leases.field
                (headerFieldMap (stringsSplit dhcpHeader ',') 0 []) line' "hwaddr")
                = some r.MACAddress
                ∧ (ParseInt (leases.field
                    (headerFieldMap (stringsSplit dhcpHeader ',') 0 []) line' "expire")).1
                  = (ParseInt (leases.field
                    (headerFieldMap (stringsSplit dhcpHeader ',') 0 []) line "expire")).1))
              = some line) :=
  ⟨rfl,
    by
      intro line hline
      simp only [dhcpLines, List.mem_cons, List.mem_singleton, List.not_mem_nil,
        or_false] at hline
      rcases hline with rfl | rfl | rfl | rfl <;> exact ⟨⟨rfl, rfl, rfl⟩, by decide⟩,
    leases_keeps_largest_expire_in_range sampleNet sampleFS "dhcp4.leases" dhcpHeader dhcpLines
      (headerFieldMap (stringsSplit dhcpHeader ',') 0 []) rfl rfl (by decide)
      (by
        intro line hline
        simp only [dhcpLines, List.mem_cons, List.mem_singleton, List.not_mem_nil,
          or_false] at hline
        rcases hline with rfl | rfl | rfl | rfl <;> exact ⟨rfl, rfl, rfl⟩)
      (by
        intro line hline
        simp only [dhcpLines, List.mem_cons, List.mem_singleton, List.not_mem_nil,
          or_false] at hline
        rcases hline with rfl | rfl | rfl | rfl <;> decide)⟩

end Yacheck
